import Mathlib

/-
Shallow embedding of the cwidgets terminal-UI toolkit (cwidgets.py):
geometry helpers, the two distribution primitives, the quad-shorthand
parser, the Scrollable/Viewport scrolling logic, widget-tree
invalidation, container focus traversal, and the generalized
LinearContainer distribution engine.  Python machine integers are
modelled as ℤ (they are unbounded in Python), Python floats appearing
in the weight computations are modelled as exact rationals ℚ, and
fallible code returns Except.
-/

namespace Cwidgets

/-- Source `zbound(v, m)`: return x such that 0 <= x <= m, i.e. `max(0, min(v, m))`. -/
def zbound (v m : ℤ) : ℤ := max 0 (min v m)

/-- Source `addpos(p1, p2)`: componentwise sum of 2-vectors. -/
def addpos (p1 p2 : ℤ × ℤ) : ℤ × ℤ := (p1.1 + p2.1, p1.2 + p2.2)

/-- Source `subpos(p1, p2)`: componentwise difference of 2-vectors. -/
def subpos (p1 p2 : ℤ × ℤ) : ℤ × ℤ := (p1.1 - p2.1, p1.2 - p2.2)

/-- Source `minpos(p1, p2)`: componentwise minimum. -/
def minpos (p1 p2 : ℤ × ℤ) : ℤ × ℤ := (min p1.1 p2.1, min p1.2 p2.2)

/-- Source `maxpos(p1, p2)`: componentwise maximum. -/
def maxpos (p1 p2 : ℤ × ℤ) : ℤ × ℤ := (max p1.1 p2.1, max p1.2 p2.2)

/-- Python `divmod` on integers: floor division with the remainder
following the divisor (Int.fdiv / Int.fmod are exactly Python's
semantics). -/
def pydivmod (a b : ℤ) : ℤ × ℤ := (Int.fdiv a b, Int.fmod a b)

/-- The `for i in range(amnt)` loop of source `linear_distrib`: one
iteration computes `inc, crem = divmod(crem + rem, amnt)` and appends
`base + inc`.  The first argument counts the remaining iterations, the
last is the running carry `crem`. -/
def ldLoop (amnt rem base : ℤ) : ℕ → ℤ → List ℤ
  | 0, _ => []
  | k + 1, crem =>
      (base + (pydivmod (crem + rem) amnt).1) ::
        ldLoop amnt rem base k (pydivmod (crem + rem) amnt).2

/-- Source `linear_distrib(full, amnt)`: a list of `amnt` approximately
equal integers summing up to `full`.  `amnt` is a count and hence ℕ;
`full` is a Python int, hence ℤ. -/
def linear_distrib (full : ℤ) (amnt : ℕ) : List ℤ :=
  if full = 0 then List.replicate amnt 0
  else if amnt = 0 then []
  else
    let base := (pydivmod full amnt).1
    let rem := (pydivmod full amnt).2
    if rem = 0 then List.replicate amnt base
    else ldLoop amnt rem base amnt rem

/-- The accumulation loop of source `weight_distrib`: for each
fractional share `i`, `i, lrem = divmod(i, 1.0)` splits off the floor,
`inc, rem = divmod(rem + lrem, 1.0)` advances the carry, and
`int(i + inc)` is appended.  Returns the emitted list together with the
final carry `rem` (the carry is inspected once more after the loop). -/
def wdLoop : List ℚ → ℚ → List ℤ × ℚ
  | [], rem => ([], rem)
  | f :: fs, rem =>
      let fl : ℤ := ⌊f⌋
      let inc : ℤ := ⌊rem + (f - fl)⌋
      let res := wdLoop fs (rem + (f - fl) - inc)
      ((fl + inc) :: res.1, res.2)

/-- Source `weight_distrib(full, weights)`: a list of integers summing
up to `full`, approximately proportional to `weights`.  The Python
float arithmetic is modelled exactly over ℚ; the trailing
rounding-error patch (`if 0 < rem <= 1 and sum(r) + 1 == full`) is
kept even though it is unreachable in exact arithmetic. -/
def weight_distrib (full : ℤ) (weights : List ℚ) : List ℤ :=
  if full = 0 then List.replicate weights.length 0
  else if weights = [] then []
  else
    let sw : ℚ := weights.sum
    let fr : List ℚ := weights.map (fun w => (full : ℚ) * w / sw)
    let res := wdLoop fr 0
    let r := res.1
    if 0 < res.2 ∧ res.2 ≤ 1 ∧ r.sum + 1 = full then
      r.dropLast ++ [r.getLast! + 1]
    else r

lemma pydivmod_eq {a b : ℤ} (hb : 0 ≤ b) : pydivmod a b = (a / b, a % b) := by
  simp [pydivmod, Int.fdiv_eq_ediv _ hb, Int.fmod_eq_emod _ hb]

lemma ldLoop_length (A rem base : ℤ) : ∀ (k : ℕ) (c : ℤ),
    (ldLoop A rem base k c).length = k := by
  intro k
  induction k with
  | zero => intro c; rfl
  | succ k ih => intro c; simp [ldLoop, ih]

lemma ldLoop_mem {A rem base : ℤ} (hA : 0 < A) (h0 : 0 ≤ rem) (h1 : rem < A) :
    ∀ (k : ℕ) (c : ℤ), 0 ≤ c → c < A →
      ∀ x ∈ ldLoop A rem base k c, x = base ∨ x = base + 1 := by
  intro k
  induction k with
  | zero => intro c _ _ x hx; simp [ldLoop] at hx
  | succ k ih =>
    intro c hc0 hcA x hx
    rw [ldLoop, pydivmod_eq hA.le] at hx
    rcases List.mem_cons.mp hx with h | h
    · have hq0 : 0 ≤ (c + rem) / A := Int.ediv_nonneg (by omega) hA.le
      have hq2 : (c + rem) / A < 2 := by
        rw [Int.ediv_lt_iff_lt_mul hA]; omega
      interval_cases h' : (c + rem) / A
      · left; omega
      · right; omega
    · exact ih _ (Int.emod_nonneg _ hA.ne') (Int.emod_lt_of_pos _ hA) x h

lemma ldLoop_sum {A rem base : ℤ} (hA : 0 < A) :
    ∀ (k : ℕ) (c : ℤ), 0 ≤ c → c < A →
      ∃ c2, 0 ≤ c2 ∧ c2 < A ∧
        A * (ldLoop A rem base k c).sum + c2 = A * ((k : ℤ) * base) + (k : ℤ) * rem + c := by
  intro k
  induction k with
  | zero =>
    intro c hc0 hcA
    exact ⟨c, hc0, hcA, by simp [ldLoop]⟩
  | succ k ih =>
    intro c hc0 hcA
    obtain ⟨c2, hc20, hc2A, hsum⟩ :=
      ih ((c + rem) % A) (Int.emod_nonneg _ hA.ne') (Int.emod_lt_of_pos _ hA)
    refine ⟨c2, hc20, hc2A, ?_⟩
    rw [ldLoop, pydivmod_eq hA.le]
    have hdm : A * ((c + rem) / A) + (c + rem) % A = c + rem := Int.ediv_add_emod _ _
    push_cast
    simp only [List.sum_cons]
    linear_combination hsum + hdm

/-- C3 counterexample: with `full = 5 > 0` and `n = 0`, `linear_distrib`
returns the empty list, whose sum is `0`, not `full`; so the claim's
"sums to full" clause fails at `n = 0`. -/
theorem cwidgets_C3_cex :
    linear_distrib 5 0 = [] ∧ ([] : List ℤ).sum ≠ (5 : ℤ) := by
  constructor
  · rfl
  · decide

/-- C3 (amended): for every `full ≥ 0` and `n ≥ 0`, `linear_distrib full n`
has length `n`, consists of non-negative integers any two of which differ
by at most 1, and — provided `n ≥ 1` — sums to `full` (for `n = 0` and
`full > 0` the empty list cannot sum to `full`). -/
theorem cwidgets_C3 (full : ℤ) (amnt : ℕ) (hfull : 0 ≤ full) :
    (linear_distrib full amnt).length = amnt ∧
    (0 < amnt → (linear_distrib full amnt).sum = full) ∧
    (∀ x ∈ linear_distrib full amnt, 0 ≤ x) ∧
    (∀ x ∈ linear_distrib full amnt, ∀ y ∈ linear_distrib full amnt, x - y ≤ 1) := by
  by_cases hf : full = 0
  · subst hf
    simp [linear_distrib]
  · by_cases hn : amnt = 0
    · subst hn
      simp [linear_distrib, hf]
    · have hA : (0 : ℤ) < (amnt : ℤ) := by exact_mod_cast Nat.pos_of_ne_zero hn
      have hdm := Int.ediv_add_emod full (amnt : ℤ)
      have hbase : 0 ≤ full / (amnt : ℤ) := Int.ediv_nonneg hfull hA.le
      have hrem0 : 0 ≤ full % (amnt : ℤ) := Int.emod_nonneg _ hA.ne'
      have hremA : full % (amnt : ℤ) < (amnt : ℤ) := Int.emod_lt_of_pos _ hA
      rw [linear_distrib, if_neg hf, if_neg hn]
      simp only [pydivmod_eq hA.le]
      by_cases hr : full % (amnt : ℤ) = 0
      · rw [if_pos hr]
        refine ⟨by simp, fun _ => ?_, fun x hx => ?_, fun x hx y hy => ?_⟩
        · rw [List.sum_replicate, nsmul_eq_mul]
          omega
        · rw [List.mem_replicate] at hx
          omega
        · rw [List.mem_replicate] at hx hy
          omega
      · simp only [if_neg hr]
        set A : ℤ := (amnt : ℤ) with hAdef
        set base : ℤ := full / A with hbdef
        set rem : ℤ := full % A with hrdef
        have hmem := @ldLoop_mem A rem base hA hrem0 hremA amnt rem hrem0 hremA
        refine ⟨ldLoop_length A rem base amnt rem, fun _ => ?_,
          fun x hx => ?_, fun x hx y hy => ?_⟩
        · obtain ⟨c2, hc20, hc2A, hsum⟩ :=
            @ldLoop_sum A rem base hA amnt rem hrem0 hremA
          have hAb : A * base + rem = full := hdm
          have hdvd : A ∣ (rem - c2) := by
            refine ⟨(ldLoop A rem base amnt rem).sum - full, ?_⟩
            linear_combination -hsum - A * hAb
          have hz : rem - c2 = 0 :=
            Int.eq_zero_of_abs_lt_dvd hdvd (abs_lt.mpr ⟨by omega, by omega⟩)
          have : A * (ldLoop A rem base amnt rem).sum = A * full := by
            linear_combination hsum + A * hAb + hz
          exact mul_left_cancel₀ hA.ne' this
        · rcases hmem x hx with h | h <;> omega
        · rcases hmem x hx with h | h <;> rcases hmem y hy with h' | h' <;> omega

/-- C3 witness: instantiation at `full = 7`, `n = 4`. -/
theorem cwidgets_C3_witness :
    (0 : ℤ) ≤ 7 ∧
    ((linear_distrib 7 4).length = 4 ∧
     (0 < 4 → (linear_distrib 7 4).sum = 7) ∧
     (∀ x ∈ linear_distrib 7 4, 0 ≤ x) ∧
     (∀ x ∈ linear_distrib 7 4, ∀ y ∈ linear_distrib 7 4, x - y ≤ 1)) :=
  ⟨by decide, cwidgets_C3 7 4 (by decide)⟩

lemma wdLoop_length : ∀ (fs : List ℚ) (rem : ℚ), (wdLoop fs rem).1.length = fs.length := by
  intro fs
  induction fs with
  | nil => intro rem; rfl
  | cons f fs ih => intro rem; simp [wdLoop, ih]

lemma wdLoop_sum : ∀ (fs : List ℚ) (rem : ℚ),
    ((wdLoop fs rem).1.sum : ℚ) + (wdLoop fs rem).2 = rem + fs.sum := by
  intro fs
  induction fs with
  | nil => intro rem; simp [wdLoop]
  | cons f fs ih =>
    intro rem
    simp only [wdLoop, List.sum_cons]
    rw [Int.cast_add, Int.cast_add]
    linear_combination ih (rem + (f - (⌊f⌋ : ℚ)) - (⌊rem + (f - (⌊f⌋ : ℚ))⌋ : ℚ))

lemma wdLoop_carry : ∀ (fs : List ℚ) (rem : ℚ), 0 ≤ rem → rem < 1 →
    0 ≤ (wdLoop fs rem).2 ∧ (wdLoop fs rem).2 < 1 := by
  intro fs
  induction fs with
  | nil => intro rem h0 h1; exact ⟨h0, h1⟩
  | cons f fs ih =>
    intro rem _ _
    refine ih _ ?_ ?_
    · have := Int.floor_le (rem + (f - (⌊f⌋ : ℚ)))
      linarith
    · have := Int.lt_floor_add_one (rem + (f - (⌊f⌋ : ℚ)))
      linarith

lemma wdLoop_mem_const (c : ℚ) : ∀ (fs : List ℚ) (rem : ℚ), (∀ f ∈ fs, f = c) →
    0 ≤ rem → rem < 1 → ∀ x ∈ (wdLoop fs rem).1, x = ⌊c⌋ ∨ x = ⌊c⌋ + 1 := by
  intro fs
  induction fs with
  | nil => intro rem _ _ _ x hx; simp [wdLoop] at hx
  | cons f fs ih =>
    intro rem hc h0 h1 x hx
    have hfc : f = c := hc f (List.mem_cons_self f fs)
    simp only [wdLoop, List.mem_cons] at hx
    rcases hx with h | h
    · subst hfc
      have hfl : (⌊f⌋ : ℚ) ≤ f := Int.floor_le f
      have hfl1 : f < (⌊f⌋ : ℚ) + 1 := Int.lt_floor_add_one f
      have hi0 : 0 ≤ ⌊rem + (f - (⌊f⌋ : ℚ))⌋ := by
        rw [Int.le_floor]; push_cast; linarith
      have hi1 : ⌊rem + (f - (⌊f⌋ : ℚ))⌋ < 2 := by
        rw [Int.floor_lt]; push_cast; linarith
      omega
    · refine ih _ (fun g hg => hc g (List.mem_cons_of_mem f hg)) ?_ ?_ x h
      · have := Int.floor_le (rem + (f - (⌊f⌋ : ℚ)))
        linarith
      · have := Int.lt_floor_add_one (rem + (f - (⌊f⌋ : ℚ)))
        linarith

/-- The fractional shares of `weight_distrib` always sum to exactly
`full` when the weight sum is nonzero. -/
lemma wd_fr_sum (full : ℤ) (weights : List ℚ) (hsw : weights.sum ≠ 0) :
    (weights.map (fun w => (full : ℚ) * w / weights.sum)).sum = full := by
  have h1 : (fun w => (full : ℚ) * w / weights.sum) =
      (fun w => ((full : ℚ) / weights.sum) * w) := by
    funext w; ring
  rw [h1]
  have h2 := List.sum_map_mul_left weights id ((full : ℚ) / weights.sum)
  simp only [id] at h2
  rw [h2, List.map_id]
  field_simp

/-- On nonzero `full` and nonzero weight sum, the rounding-error patch of
`weight_distrib` never fires (the carries are exact in ℚ): the result is
just the loop output, and it sums to `full`. -/
lemma weight_distrib_eq_loop (full : ℤ) (weights : List ℚ)
    (hfull : full ≠ 0) (hne : weights ≠ []) (hsw : weights.sum ≠ 0) :
    weight_distrib full weights =
      (wdLoop (weights.map (fun w => (full : ℚ) * w / weights.sum)) 0).1 ∧
    (weight_distrib full weights).sum = full := by
  rw [weight_distrib, if_neg hfull, if_neg hne]
  set fr := weights.map (fun w => (full : ℚ) * w / weights.sum) with hfr
  have hsum := wdLoop_sum fr 0
  rw [wd_fr_sum full weights hsw, zero_add] at hsum
  have hcarry := wdLoop_carry fr 0 le_rfl one_pos
  have hint : ((full - (wdLoop fr 0).1.sum : ℤ) : ℚ) = (wdLoop fr 0).2 := by
    rw [Int.cast_sub]
    linarith
  have hz : full - (wdLoop fr 0).1.sum = 0 := by
    have h0 : (0 : ℚ) ≤ ((full - (wdLoop fr 0).1.sum : ℤ) : ℚ) := by
      rw [hint]; exact hcarry.1
    have h1 : ((full - (wdLoop fr 0).1.sum : ℤ) : ℚ) < 1 := by
      rw [hint]; exact hcarry.2
    have h0' : (0 : ℤ) ≤ full - (wdLoop fr 0).1.sum := by exact_mod_cast h0
    have h1' : full - (wdLoop fr 0).1.sum < 1 := by exact_mod_cast h1
    omega
  have hS : (wdLoop fr 0).1.sum = full := by omega
  have hcond : ¬(0 < (wdLoop fr 0).2 ∧ (wdLoop fr 0).2 ≤ 1 ∧
      (wdLoop fr 0).1.sum + 1 = full) := by
    rintro ⟨-, -, h3⟩
    omega
  rw [if_neg hcond]
  exact ⟨rfl, hS⟩

lemma weight_distrib_length (full : ℤ) (weights : List ℚ) :
    (weight_distrib full weights).length = weights.length := by
  rw [weight_distrib]
  by_cases hfull : full = 0
  · simp [hfull]
  · rw [if_neg hfull]
    by_cases hne : weights = []
    · simp [hne]
    · rw [if_neg hne]
      have hlen : (wdLoop (weights.map
          (fun w => (full : ℚ) * w / weights.sum)) 0).1.length = weights.length := by
        rw [wdLoop_length, List.length_map]
      by_cases hc : 0 < (wdLoop (weights.map
            (fun w => (full : ℚ) * w / weights.sum)) 0).2 ∧
          (wdLoop (weights.map (fun w => (full : ℚ) * w / weights.sum)) 0).2 ≤ 1 ∧
          (wdLoop (weights.map (fun w => (full : ℚ) * w / weights.sum)) 0).1.sum + 1 = full
      · rw [if_pos hc]
        have hpos : 0 < weights.length := List.length_pos.mpr hne
        simp only [List.length_append, List.length_dropLast, List.length_cons,
          List.length_nil, hlen]
        omega
      · rw [if_neg hc]
        exact hlen

/-- C10: distributing a budget of zero returns all zeros without ever
reaching the division by the weight sum, for every weight list
(including the empty list and all-zero weights). -/
theorem cwidgets_C10 (weights : List ℚ) :
    weight_distrib 0 weights = List.replicate weights.length 0 := by
  simp [weight_distrib]

/-- C4: for every `full ≥ 0` and non-empty weight list with positive sum,
`weight_distrib full weights` has the same length as `weights` and sums
exactly to `full`. -/
theorem cwidgets_C4 (full : ℤ) (weights : List ℚ) (hfull : 0 ≤ full)
    (hne : weights ≠ []) (hsw : 0 < weights.sum) :
    (weight_distrib full weights).length = weights.length ∧
    (weight_distrib full weights).sum = full := by
  refine ⟨weight_distrib_length full weights, ?_⟩
  by_cases hf : full = 0
  · subst hf
    simp [weight_distrib]
  · exact (weight_distrib_eq_loop full weights hf hne hsw.ne').2

/-- C4 witness: instantiation at `full = 7`, `weights = [2, 1]`. -/
theorem cwidgets_C4_witness :
    (0 : ℤ) ≤ 7 ∧ ([(2 : ℚ), 1] ≠ []) ∧ (0 : ℚ) < [(2 : ℚ), 1].sum ∧
    ((weight_distrib 7 [2, 1]).length = [(2 : ℚ), 1].length ∧
     (weight_distrib 7 [2, 1]).sum = 7) :=
  ⟨by decide, by decide, by norm_num,
   cwidgets_C4 7 [2, 1] (by decide) (by decide) (by norm_num)⟩

/-! Source `parse_quad(v, default)`: expand a scalar or tuple into a
4-tuple, CSS-margin style.  A Python argument is either a non-iterable
scalar (the `except TypeError` path makes it `(v, v, v, v)`) or a tuple;
elements may be `None` (modelled as `Option ℤ`), in which case the
corresponding element of `default` is substituted. -/

inductive QuadIn where
  | scalar (v : Option ℤ)
  | tup (l : List (Option ℤ))

/-- A 4-tuple of possibly-None values, as produced by `parse_quad`. -/
def Quad : Type := Option ℤ × Option ℤ × Option ℤ × Option ℤ

/-- The final default-substitution step of `parse_quad`:
`default[k] if v[k] is None else v[k]`. -/
def pq_subst (a b c d : Option ℤ) (dflt : Quad) : Quad :=
  (match a with | none => dflt.1 | some x => some x,
   match b with | none => dflt.2.1 | some x => some x,
   match c with | none => dflt.2.2.1 | some x => some x,
   match d with | none => dflt.2.2.2 | some x => some x)

/-- Source `parse_quad`.  Length 0 and length > 4 raise; length 3
returns early without default substitution (as in the source). -/
def parse_quad (v : QuadIn) (dflt : Quad) : Except String Quad :=
  let t : List (Option ℤ) :=
    match v with
    | .scalar x => [x, x, x, x]
    | .tup l => l
  match t with
  | [] => .error "Too few values to parse_quad()!"
  | [a] => .ok (pq_subst a a a a dflt)
  | [a, b] => .ok (pq_subst a b a b dflt)
  | [a, b, c] => .ok (a, b, c, b)
  | [a, b, c, d] => .ok (pq_subst a b c d dflt)
  | _ => .error "Too many values to parse_quad()!"

/-- Whether a `parse_quad` call returned a value (as opposed to raising). -/
def pqOk (r : Except String Quad) : Bool :=
  match r with
  | .ok _ => true
  | .error _ => false

/-- C9: malformed quad shorthand fails at configuration time and is never
silently coerced: tuples of length 0 or above 4 raise the configuration
error, while scalars and tuples of length 1 to 4 return a 4-tuple. -/
theorem cwidgets_C9 :
    (∀ (l : List (Option ℤ)) (d : Quad), l.length = 0 ∨ 4 < l.length →
      pqOk (parse_quad (.tup l) d) = false) ∧
    (∀ (x : Option ℤ) (d : Quad), pqOk (parse_quad (.scalar x) d) = true) ∧
    (∀ (l : List (Option ℤ)) (d : Quad), 1 ≤ l.length → l.length ≤ 4 →
      pqOk (parse_quad (.tup l) d) = true) := by
  refine ⟨fun l d h => ?_, fun x d => rfl, fun l d h1 h4 => ?_⟩
  · match l, h with
    | [], _ => rfl
    | _ :: _ :: _ :: _ :: _ :: _, _ => rfl
    | [_], Or.inl h => simp at h
    | [_], Or.inr h => simp at h
    | [_, _], Or.inl h => simp at h
    | [_, _], Or.inr h => simp at h
    | [_, _, _], Or.inl h => simp at h
    | [_, _, _], Or.inr h => simp at h
    | [_, _, _, _], Or.inl h => simp at h
    | [_, _, _, _], Or.inr h => simp at h
  · match l with
    | [_] => rfl
    | [_, _] => rfl
    | [_, _, _] => rfl
    | [_, _, _, _] => rfl
    | [] => simp at h1
    | _ :: _ :: _ :: _ :: _ :: _ => simp at h4

/-- C9 witness: a length-0 tuple raises, a scalar and a length-3 tuple
return quads. -/
theorem cwidgets_C9_witness :
    pqOk (parse_quad (.tup []) (none, none, none, none)) = false ∧
    pqOk (parse_quad (.scalar (some 5)) (none, none, none, none)) = true ∧
    pqOk (parse_quad (.tup [some 1, none, some 3]) (none, none, none, none)) = true :=
  ⟨cwidgets_C9.1 [] _ (Or.inl rfl),
   cwidgets_C9.2.1 (some 5) _,
   cwidgets_C9.2.2 [some 1, none, some 3] _ (by decide) (by decide)⟩

/-! Scrollable / Viewport scrolling state. -/

/-- Source `Scrollable.scroll(newpos, rel)`: clamp the requested position
into `[0, maxscrollpos]` componentwise; returns the new scroll position
together with whether it actually changed (the `update` flag that gates
`on_scroll`). -/
def scroll (scrollpos maxscrollpos newpos : ℤ × ℤ) (rel : Bool) :
    (ℤ × ℤ) × Bool :=
  let np := if rel then addpos scrollpos newpos else newpos
  let np2 := maxpos (0, 0) (minpos np maxscrollpos)
  (np2, np2.1 != scrollpos.1 || np2.2 != scrollpos.2)

/-- The scroll-state part of source `Viewport.relayout`: recompute
`maxscrollpos` from the pad size and clamp the stored scroll position
into the new range with `zbound`.  `haschild` selects between the
`self.children` branches; `chps`/`chms` are the child's preferred and
minimum sizes. -/
def viewport_relayout_scroll (haschild : Bool) (size chps chms : ℤ × ℤ)
    (restrict : Bool) (scrollpos : ℤ × ℤ) : (ℤ × ℤ) × (ℤ × ℤ) :=
  let maxsp :=
    if haschild then
      let chs := if restrict then maxpos (minpos size chps) chms else chps
      let childsize := maxpos size chs
      let padsize := maxpos childsize size
      subpos padsize size
    else (0, 0)
  (maxsp, (zbound scrollpos.1 maxsp.1, zbound scrollpos.2 maxsp.2))

/-- C6: the scroll position always stays in `[0, maxscrollpos]`
componentwise: `scroll` clamps every request (given the invariant
`maxscrollpos ≥ 0`), and `Viewport.relayout` recomputes `maxscrollpos`
(which is never negative) and clamps the stored position down into the
new range without error. -/
theorem cwidgets_C6 :
    (∀ (sp msp np : ℤ × ℤ) (rel : Bool), 0 ≤ msp.1 → 0 ≤ msp.2 →
      0 ≤ (scroll sp msp np rel).1.1 ∧ (scroll sp msp np rel).1.1 ≤ msp.1 ∧
      0 ≤ (scroll sp msp np rel).1.2 ∧ (scroll sp msp np rel).1.2 ≤ msp.2) ∧
    (∀ (hc : Bool) (size chps chms : ℤ × ℤ) (restrict : Bool) (sp : ℤ × ℤ),
      0 ≤ (viewport_relayout_scroll hc size chps chms restrict sp).1.1 ∧
      0 ≤ (viewport_relayout_scroll hc size chps chms restrict sp).1.2 ∧
      0 ≤ (viewport_relayout_scroll hc size chps chms restrict sp).2.1 ∧
      (viewport_relayout_scroll hc size chps chms restrict sp).2.1 ≤
        (viewport_relayout_scroll hc size chps chms restrict sp).1.1 ∧
      0 ≤ (viewport_relayout_scroll hc size chps chms restrict sp).2.2 ∧
      (viewport_relayout_scroll hc size chps chms restrict sp).2.2 ≤
        (viewport_relayout_scroll hc size chps chms restrict sp).1.2) := by
  constructor
  · intro sp msp np rel h1 h2
    simp only [scroll, maxpos, minpos, addpos]
    split_ifs <;> exact ⟨by omega, by omega, by omega, by omega⟩
  · intro hc size chps chms restrict sp
    simp only [viewport_relayout_scroll, maxpos, minpos, subpos, zbound]
    split_ifs <;> refine ⟨by omega, by omega, by omega, by omega, by omega, by omega⟩

/-- C6 witness: instantiation with `maxscrollpos = (5, 5)` and a
relayout that shrinks the range below the stored position. -/
theorem cwidgets_C6_witness :
    ((0 : ℤ) ≤ 5 ∧
     (0 ≤ (scroll (1, 1) (5, 5) (9, -4) false).1.1 ∧
      (scroll (1, 1) (5, 5) (9, -4) false).1.1 ≤ 5 ∧
      0 ≤ (scroll (1, 1) (5, 5) (9, -4) false).1.2 ∧
      (scroll (1, 1) (5, 5) (9, -4) false).1.2 ≤ 5)) ∧
    (0 ≤ (viewport_relayout_scroll true (8, 8) (10, 10) (2, 2) true (7, 7)).1.1 ∧
     0 ≤ (viewport_relayout_scroll true (8, 8) (10, 10) (2, 2) true (7, 7)).1.2 ∧
     0 ≤ (viewport_relayout_scroll true (8, 8) (10, 10) (2, 2) true (7, 7)).2.1 ∧
     (viewport_relayout_scroll true (8, 8) (10, 10) (2, 2) true (7, 7)).2.1 ≤
       (viewport_relayout_scroll true (8, 8) (10, 10) (2, 2) true (7, 7)).1.1 ∧
     0 ≤ (viewport_relayout_scroll true (8, 8) (10, 10) (2, 2) true (7, 7)).2.2 ∧
     (viewport_relayout_scroll true (8, 8) (10, 10) (2, 2) true (7, 7)).2.2 ≤
       (viewport_relayout_scroll true (8, 8) (10, 10) (2, 2) true (7, 7)).1.2) :=
  ⟨⟨by decide,
    cwidgets_C6.1 (1, 1) (5, 5) (9, -4) false (by decide) (by decide)⟩,
   cwidgets_C6.2 true (8, 8) (10, 10) (2, 2) true (7, 7)⟩

/-! Viewport ensure-visible logic. -/

/-- Source `Viewport.calc_shift(offset, maxoffs, size, rect)`: the minimal
scroll adjustment bringing `rect` into the window of extent `size` at
`offset`, clamped into `[0, maxoffs]`. -/
def calc_shift (offset maxoffs size : ℤ × ℤ) (rect : ℤ × ℤ × ℤ × ℤ) : ℤ × ℤ :=
  let br := subpos (addpos (rect.1, rect.2.1) (rect.2.2.1, rect.2.2.2)) size
  let r0 := (if offset.1 < br.1 then br.1 else offset.1,
             if offset.2 < br.2 then br.2 else offset.2)
  let r1 := (if r0.1 > rect.1 then rect.1 else r0.1,
             if r0.2 > rect.2.1 then rect.2.1 else r0.2)
  (zbound r1.1 maxoffs.1, zbound r1.2 maxoffs.2)

/-- The scroll-position update performed by source `Viewport.grab_input`
when a rectangle (and optionally a cursor position, turned into a 1x1
rectangle) is requested to be visible. -/
def viewport_grab_scroll (scrollpos maxscrollpos size : ℤ × ℤ)
    (rect : ℤ × ℤ × ℤ × ℤ) (pos : Option (ℤ × ℤ)) : ℤ × ℤ :=
  let n1 := calc_shift scrollpos maxscrollpos size rect
  match pos with
  | none => n1
  | some p => calc_shift n1 maxscrollpos size (p.1, p.2, 1, 1)

lemma calc_shift_of_visible (offset maxoffs size : ℤ × ℤ)
    (rect : ℤ × ℤ × ℤ × ℤ)
    (h01 : 0 ≤ offset.1) (h02 : 0 ≤ offset.2)
    (hm1 : offset.1 ≤ maxoffs.1) (hm2 : offset.2 ≤ maxoffs.2)
    (hx : offset.1 ≤ rect.1) (hw : rect.1 + rect.2.2.1 ≤ offset.1 + size.1)
    (hy : offset.2 ≤ rect.2.1) (hh : rect.2.1 + rect.2.2.2 ≤ offset.2 + size.2) :
    calc_shift offset maxoffs size rect = offset := by
  simp only [calc_shift, subpos, addpos, zbound]
  have hc1 : ¬(offset.1 < rect.1 + rect.2.2.1 - size.1) := by omega
  have hc2 : ¬(offset.2 < rect.2.1 + rect.2.2.2 - size.2) := by omega
  rw [if_neg hc1, if_neg hc2, if_neg (by omega : ¬(offset.1 > rect.1)),
    if_neg (by omega : ¬(offset.2 > rect.2.1))]
  rw [Prod.ext_iff]
  constructor <;> dsimp only <;> omega

/-- C7: if a rectangle already lies fully inside the visible window, both
`calc_shift` and the `grab_input` scroll update (with any cursor position
inside the rectangle) leave the scroll position unchanged. -/
theorem cwidgets_C7 (sp msp size : ℤ × ℤ) (rect : ℤ × ℤ × ℤ × ℤ)
    (pos : Option (ℤ × ℤ))
    (h01 : 0 ≤ sp.1) (h02 : 0 ≤ sp.2)
    (hm1 : sp.1 ≤ msp.1) (hm2 : sp.2 ≤ msp.2)
    (hx : sp.1 ≤ rect.1) (hw : rect.1 + rect.2.2.1 ≤ sp.1 + size.1)
    (hy : sp.2 ≤ rect.2.1) (hh : rect.2.1 + rect.2.2.2 ≤ sp.2 + size.2)
    (hpos : ∀ p, pos = some p →
      rect.1 ≤ p.1 ∧ p.1 < rect.1 + rect.2.2.1 ∧
      rect.2.1 ≤ p.2 ∧ p.2 < rect.2.1 + rect.2.2.2) :
    calc_shift sp msp size rect = sp ∧
    viewport_grab_scroll sp msp size rect pos = sp := by
  have h1 : calc_shift sp msp size rect = sp :=
    calc_shift_of_visible sp msp size rect h01 h02 hm1 hm2 hx hw hy hh
  refine ⟨h1, ?_⟩
  rcases pos with _ | p
  · simpa [viewport_grab_scroll] using h1
  · obtain ⟨hp1, hp2, hp3, hp4⟩ := hpos p rfl
    have h2 : calc_shift sp msp size (p.1, p.2, 1, 1) = sp := by
      apply calc_shift_of_visible sp msp size (p.1, p.2, 1, 1) h01 h02 hm1 hm2 <;>
        dsimp only <;> omega
    simp only [viewport_grab_scroll, h1]
    exact h2

/-- C7 witness: a rectangle and cursor already fully visible leave the
scroll position `(1, 2)` unchanged. -/
theorem cwidgets_C7_witness :
    calc_shift (1, 2) (5, 5) (10, 10) (2, 3, 4, 4) = (1, 2) ∧
    viewport_grab_scroll (1, 2) (5, 5) (10, 10) (2, 3, 4, 4) (some (3, 4)) = (1, 2) :=
  cwidgets_C7 (1, 2) (5, 5) (10, 10) (2, 3, 4, 4) (some (3, 4))
    (by decide) (by decide) (by decide) (by decide) (by decide) (by decide)
    (by decide) (by decide)
    (fun p hp => by cases hp; exact ⟨by decide, by decide, by decide, by decide⟩)

/-! Widget-tree invalidation (Widget.invalidate / Container.invalidate /
StackContainer.invalidate).  A widget carries the two redraw flags
`valid_display` and `valid_self`; a Container additionally owns an
ordered child list.  The plain Container.invalidate with `rec = False`
delegates to Widget.invalidate, but StackContainer overrides
invalidate: a pass-through from a child additionally invalidates all
later siblings recursively, and any other request (in particular a
pinpoint aimed at the StackContainer itself) is turned into a
recursive invalidation of its whole subtree, which never bubbles
(`ovd and not rec` fails for `rec = True`).  Nodes therefore carry a
flag telling whether they are a StackContainer. -/

inductive WTree where
  | node (stack validDisplay validSelf : Bool) (children : List WTree)

/-- Whether the widget is a StackContainer. -/
def WTree.isStack : WTree → Bool
  | .node st _ _ _ => st

/-- The `valid_display` flag of a widget. -/
def WTree.validDisplay : WTree → Bool
  | .node _ vd _ _ => vd

/-- The `valid_self` flag of a widget. -/
def WTree.validSelf : WTree → Bool
  | .node _ _ vs _ => vs

/-- The child list of a widget. -/
def WTree.children : WTree → List WTree
  | .node _ _ _ cs => cs

lemma WTree.isStack_node (st vd vs : Bool) (cs : List WTree) :
    (WTree.node st vd vs cs).isStack = st := rfl

lemma WTree.validDisplay_node (st vd vs : Bool) (cs : List WTree) :
    (WTree.node st vd vs cs).validDisplay = vd := rfl

lemma WTree.validSelf_node (st vd vs : Bool) (cs : List WTree) :
    (WTree.node st vd vs cs).validSelf = vs := rfl

lemma WTree.children_node (st vd vs : Bool) (cs : List WTree) :
    (WTree.node st vd vs cs).children = cs := rfl

mutual

/-- Every node of the tree has both validity flags set. -/
def allValid : WTree → Bool
  | .node _ vd vs cs => vd && vs && allValidL cs

/-- Every tree in the list is `allValid`. -/
def allValidL : List WTree → Bool
  | [] => true
  | t :: ts => allValid t && allValidL ts

end

mutual

/-- No node of the tree is a StackContainer (every widget uses the
generic Widget/Container invalidation). -/
def noStack : WTree → Bool
  | .node st _ _ cs => !st && noStackL cs

/-- Every tree in the list satisfies `noStack`. -/
def noStackL : List WTree → Bool
  | [] => true
  | t :: ts => noStack t && noStackL ts

end

mutual

/-- Recursive invalidation, `invalidate(True)`: both flags are cleared
on the whole subtree and the request never bubbles. -/
def invalidateRec : WTree → WTree
  | .node st _ _ cs => .node st false false (invalidateRecL cs)

/-- Recursive invalidation of every tree in the list. -/
def invalidateRecL : List WTree → List WTree
  | [] => []
  | t :: ts => invalidateRec t :: invalidateRecL ts

end

/-- The later-sibling sweep of StackContainer.invalidate:
`for i in self.children[idx + 1:]: i.invalidate(True)` — the entries
after the given position are recursively invalidated. -/
def invAfter : List WTree → ℕ → List WTree
  | [], _ => []
  | c :: cs, 0 => c :: invalidateRecL cs
  | c :: cs, j + 1 => c :: invAfter cs j

/-- Look up the node addressed by a path of child indices. -/
def getAt : WTree → List ℕ → Option WTree
  | t, [] => some t
  | t, i :: p =>
      match t.children[i]? with
      | none => none
      | some c => getAt c p

/-- Pinpoint invalidation (`invalidate()` with no arguments) at the node
addressed by the path, replayed functionally from the source: a plain
target clears both flags and bubbles iff it was display-valid
(`ovd and not rec`), while a StackContainer target recursively
invalidates its subtree without bubbling (its `else` branch calls
`Container.invalidate(self, True, child)`); a plain ancestor reached by
a bubble performs pass-through invalidation (clearing only
`valid_display`) and bubbles iff it was display-valid, while a
StackContainer ancestor additionally invalidates all later siblings of
the originating child recursively.  Returns the updated tree and
whether the request bubbles past the root. -/
def invAt : WTree → List ℕ → WTree × Bool
  | t, [] =>
      if t.isStack then (invalidateRec t, false)
      else (.node t.isStack false false t.children, t.validDisplay)
  | t, i :: p =>
      match t.children[i]? with
      | none => (t, false)
      | some c =>
          let r := invAt c p
          if r.2 then
            if t.isStack then
              (.node t.isStack false t.validSelf (invAfter (t.children.set i r.1) i),
               t.validDisplay)
            else (.node t.isStack false t.validSelf (t.children.set i r.1),
               t.validDisplay)
          else (.node t.isStack t.validDisplay t.validSelf (t.children.set i r.1), false)

lemma allValidL_get {cs : List WTree} {i : ℕ} {c : WTree}
    (h : allValidL cs = true) (hc : cs[i]? = some c) : allValid c = true := by
  induction cs generalizing i with
  | nil => simp at hc
  | cons t ts ih =>
    rw [allValidL, Bool.and_eq_true] at h
    cases i with
    | zero => rw [List.getElem?_cons_zero] at hc; cases hc; exact h.1
    | succ n => rw [List.getElem?_cons_succ] at hc; exact ih h.2 hc

lemma noStackL_get {cs : List WTree} {i : ℕ} {c : WTree}
    (h : noStackL cs = true) (hc : cs[i]? = some c) : noStack c = true := by
  induction cs generalizing i with
  | nil => simp at hc
  | cons t ts ih =>
    rw [noStackL, Bool.and_eq_true] at h
    cases i with
    | zero => rw [List.getElem?_cons_zero] at hc; cases hc; exact h.1
    | succ n => rw [List.getElem?_cons_succ] at hc; exact ih h.2 hc

lemma allValid_getAt : ∀ (q : List ℕ) (t sub : WTree),
    allValid t = true → getAt t q = some sub → allValid sub = true := by
  intro q
  induction q with
  | nil =>
    intro t sub h hg
    rw [getAt] at hg
    cases hg
    exact h
  | cons j q ih =>
    intro t sub h hg
    match t with
    | .node st vd vs cs =>
      rw [getAt] at hg
      simp only [WTree.children_node] at hg
      split at hg
      · cases hg
      · rename_i c hc
        rw [allValid, Bool.and_eq_true] at h
        exact ih c sub (allValidL_get h.2 hc) hg

lemma allValid_flags {t : WTree} (h : allValid t = true) :
    t.validDisplay = true ∧ t.validSelf = true := by
  match t with
  | .node st vd vs cs =>
    rw [allValid, Bool.and_eq_true, Bool.and_eq_true] at h
    exact ⟨h.1.1, h.1.2⟩

/-- Full characterization of pinpoint invalidation on an everywhere-valid
tree of plain (non-Stack) containers: the bubble reaches past the root,
`valid_display` is cleared on exactly the ancestor chain of the target
(the prefixes of the path), and `valid_self` is cleared exactly at the
target. -/
lemma invAt_spec : ∀ (p : List ℕ) (t target : WTree),
    allValid t = true → noStack t = true → getAt t p = some target →
    (invAt t p).2 = true ∧
    ∀ (q : List ℕ) (sub : WTree), getAt (invAt t p).1 q = some sub →
      (sub.validDisplay = false ↔ q <+: p) ∧ (sub.validSelf = false ↔ q = p) := by
  intro p
  induction p with
  | nil =>
    intro t target h hns hg
    match t with
    | .node st vd vs cs =>
      rw [allValid, Bool.and_eq_true, Bool.and_eq_true] at h
      obtain ⟨⟨hvd, hvs⟩, hcs⟩ := h
      rw [noStack, Bool.and_eq_true, Bool.not_eq_true'] at hns
      obtain ⟨hst, -⟩ := hns
      subst hst
      rw [invAt]
      rw [WTree.isStack_node, if_neg (by decide : ¬((false : Bool) = true))]
      refine ⟨hvd, ?_⟩
      intro q sub hq
      simp only [WTree.children_node] at hq
      match q with
      | [] =>
        rw [getAt] at hq
        cases hq
        simp [WTree.validDisplay_node, WTree.validSelf_node]
      | j :: q' =>
        rw [getAt] at hq
        simp only [WTree.children_node] at hq
        split at hq
        · cases hq
        · rename_i c hc
          have hsub := allValid_flags (allValid_getAt q' c sub (allValidL_get hcs hc) hq)
          rw [hsub.1, hsub.2]
          simp
  | cons i p' ih =>
    intro t target h hns hg
    match t with
    | .node st vd vs cs =>
      rw [allValid, Bool.and_eq_true, Bool.and_eq_true] at h
      obtain ⟨⟨hvd, hvs⟩, hcs⟩ := h
      rw [noStack, Bool.and_eq_true, Bool.not_eq_true'] at hns
      obtain ⟨hst, hnsl⟩ := hns
      subst hst
      rw [getAt] at hg
      simp only [WTree.children_node] at hg
      split at hg
      · cases hg
      · rename_i c hc
        have hcv : allValid c = true := allValidL_get hcs hc
        have hcns : noStack c = true := noStackL_get hnsl hc
        obtain ⟨hbub, hchar⟩ := ih c target hcv hcns hg
        have hilt : i < cs.length := by
          by_contra hn
          rw [List.getElem?_eq_none (by omega)] at hc
          cases hc
        rw [invAt]
        simp only [WTree.children_node, WTree.isStack_node, WTree.validDisplay_node,
          WTree.validSelf_node, hc]
        rw [if_pos hbub, if_neg (by decide : ¬((false : Bool) = true))]
        refine ⟨hvd, ?_⟩
        intro q sub hq
        match q with
        | [] =>
          rw [getAt] at hq
          cases hq
          simp [WTree.validDisplay_node, WTree.validSelf_node, hvs]
        | j :: q' =>
          rw [getAt] at hq
          simp only [WTree.children_node] at hq
          by_cases hij : j = i
          · subst hij
            simp only [List.getElem?_set_self hilt] at hq
            obtain ⟨h1, h2⟩ := hchar q' sub hq
            simp [h1, h2, List.cons_prefix_cons]
          · rw [List.getElem?_set_ne (fun he => hij he.symm)] at hq
            split at hq
            · cases hq
            · rename_i c2 hc2
              have hsub := allValid_flags
                (allValid_getAt q' c2 sub (allValidL_get hcs hc2) hq)
              rw [hsub.1, hsub.2]
              simp [List.cons_prefix_cons, hij]

/-- C2 counterexample: the root holds one StackContainer with two plain
leaves, everything valid.  Pinpoint-invalidating the first leaf (path
`[0, 0]`) bubbles through the StackContainer, whose invalidate override
recursively invalidates the later sibling: the node at path `[0, 1]` —
not on the ancestor chain of `[0, 0]` — ends with
`valid_display = false`, refuting the claimed sibling locality. -/
theorem cwidgets_C2_cex :
    allValid (WTree.node false true true
      [WTree.node true true true
        [WTree.node false true true [], WTree.node false true true []]]) = true ∧
    ¬([0, 1] <+: [0, 0]) ∧
    getAt (invAt (WTree.node false true true
        [WTree.node true true true
          [WTree.node false true true [], WTree.node false true true []]])
        [0, 0]).1 [0, 1] =
      some (WTree.node false false false []) ∧
    (WTree.node false false false []).validDisplay = false := by
  refine ⟨by simp [allValid, allValidL], ?_, ?_, rfl⟩
  · simp [List.cons_prefix_cons]
  · simp [invAt, getAt, invAfter, invalidateRec, invalidateRecL,
      WTree.children_node, WTree.isStack_node, WTree.validDisplay_node,
      WTree.validSelf_node]

/-- C2 (amended): in a tree of plain (non-Stack) containers whose nodes
are all display- and self-valid, a pinpoint `invalidate()` on one leaf
clears `valid_display` on exactly the leaf and its ancestor chain (the
prefixes of the leaf's path), clears `valid_self` on exactly the leaf,
and leaves `valid_display == true` on every node off that chain (in
particular all siblings and their subtrees).  When the chain crosses a
StackContainer this locality fails: its invalidate override recursively
invalidates the originating child's later siblings (see the
counterexample). -/
theorem cwidgets_C2 (t target : WTree) (p : List ℕ)
    (hv : allValid t = true) (hns : noStack t = true)
    (hg : getAt t p = some target)
    (_hleaf : target.children = []) :
    ∀ (q : List ℕ) (sub : WTree), getAt (invAt t p).1 q = some sub →
      (sub.validDisplay = false ↔ q <+: p) ∧ (sub.validSelf = false ↔ q = p) :=
  (invAt_spec p t target hv hns hg).2

/-- C2 witness: a three-level tree of plain containers; invalidating the
leaf at path `[0, 1]` clears the flags along that chain while the
sibling at `[1]` stays display-valid. -/
theorem cwidgets_C2_witness :
    ((WTree.node false true true []).validDisplay = false ↔ [1] <+: [0, 1]) ∧
    ((WTree.node false true true []).validSelf = false ↔ [1] = [0, 1]) :=
  cwidgets_C2
    (.node false true true
      [.node false true true [.node false true true [], .node false true true []],
       .node false true true []])
    (.node false true true []) [0, 1] (by simp [allValid, allValidL])
    (by simp [noStack, noStackL]) rfl rfl
    [1] (.node false true true []) rfl

/-! Container focus traversal (Container.focus / Container._refocus),
specialized to a container whose children are "toggle" leaves in the
style of Button: a leaf's `focus(rev)` returns `not self.focused`
without mutating, and its `FocusEvent` handler (fired from `_refocus`)
sets `self.focused` to the event payload. -/

/-- The focus state of one container of toggle leaves: the leaves'
`focused` flags in insertion order, and the index of the container's
currently focused child, if any (the source stores the child object;
children are distinct, so the index is equivalent). -/
structure CState where
  flags : List Bool
  focused : Option ℕ
deriving DecidableEq

/-- Source `Container._refocus(new)`: no-op when `new` is the focused
child; otherwise the old focused child (if any) receives
`(FocusEvent, False)` — clearing its flag — and the new one (if any)
receives `(FocusEvent, True)` — setting its flag. -/
def refocus (s : CState) (new : Option ℕ) : CState :=
  if new = s.focused then s
  else
    let flags1 :=
      match s.focused with
      | none => s.flags
      | some i => s.flags.set i false
    let flags2 :=
      match new with
      | none => flags1
      | some j => flags1.set j true
    ⟨flags2, new⟩

/-- The `while 1` loop of source `Container.focus`: try
`children[idx].focus(rev)` (which for a toggle leaf succeeds iff the
leaf is not focused), else step `idx` by `incr = ±1` and stop on
leaving the range.  The loop visits at most `len(children)` indices, so
that is used as the iteration budget. -/
def focusScan (flags : List Bool) (rev : Bool) : ℕ → ℕ → Option ℕ
  | 0, _ => none
  | fuel + 1, idx =>
      match flags[idx]? with
      | none => none
      | some f =>
          if !f then some idx
          else if rev then
            (if idx = 0 then none else focusScan flags rev fuel (idx - 1))
          else
            (if idx + 1 = flags.length then none else focusScan flags rev fuel (idx + 1))

/-- Source `Container.focus(rev)`: start at the focused child if any,
else at the first (or last if `rev`) child; scan until a child accepts
focus, recording it via `_refocus`, or exhaust the list and clear the
focus record. -/
def containerFocus (s : CState) (rev : Bool) : CState × Bool :=
  if s.flags.isEmpty then (s, false)
  else
    let idx :=
      match s.focused with
      | some i => i
      | none => if rev then s.flags.length - 1 else 0
    match focusScan s.flags rev s.flags.length idx with
    | some j => (refocus s (some j), true)
    | none => (refocus s none, false)

/-- C8: for a container with three unfocused toggle leaves A, B, C,
three calls of `focus(False)` focus A, B, C in insertion order and
return True; the fourth call returns False and clears the focus record;
a subsequent `focus(True)` starts again from C and focuses it. -/
theorem cwidgets_C8 :
    containerFocus ⟨[false, false, false], none⟩ false =
      (⟨[true, false, false], some 0⟩, true) ∧
    containerFocus ⟨[true, false, false], some 0⟩ false =
      (⟨[false, true, false], some 1⟩, true) ∧
    containerFocus ⟨[false, true, false], some 1⟩ false =
      (⟨[false, false, true], some 2⟩, true) ∧
    containerFocus ⟨[false, false, true], some 2⟩ false =
      (⟨[false, false, false], none⟩, false) ∧
    containerFocus ⟨[false, false, false], none⟩ true =
      (⟨[false, false, true], some 2⟩, true) := by
  decide

/-! The generalized LinearContainer distribution engine:
LinearContainer.distribute and its helpers `_make_groups`,
`_unpack_groups`, `_shrink`, `_distrib_normal`, `_distrib_equal`.
Sizes and minima are Python ints (ℤ); growth/shrink weights are Python
floats (exact ℚ here); the per-item advance flag is the truthiness of
`r.advances[axis]`. -/

/-- The layout modes of LinearContainer. -/
inductive Mode where
  | normal
  | stretch
  | equal
  | equalForce
deriving DecidableEq

/-- One group accumulated by `_make_groups`: its item count and the
group-level min, size, growth weight and shrink weight. -/
structure GroupAcc where
  len : ℕ
  gmin : ℤ
  gsize : ℤ
  gw : ℚ
  gsw : ℚ

/-- The per-item update of `_make_groups`' loop body: increment the
group's length, max in the item's min and size, and overwrite the
group's weights with the item's. -/
def groupAdd (g : GroupAcc) (i m : ℤ) (w s : ℚ) : GroupAcc :=
  ⟨g.len + 1, max g.gmin m, max g.gsize i, w, s⟩

/-- A group as freshly appended by `_make_groups`:
`(0, 0, 0, 0, 1)`. -/
def freshGroup : GroupAcc := ⟨0, 0, 0, 0, 1⟩

/-- The 5-way zip performed by `zip(initial, mins, advances, weights,
sweights)`. -/
def zip5 : List ℤ → List ℤ → List Bool → List ℚ → List ℚ →
    List (ℤ × ℤ × Bool × ℚ × ℚ)
  | a :: as, b :: bs, c :: cs, d :: ds, e :: es =>
      (a, b, c, d, e) :: zip5 as bs cs ds es
  | _, _, _, _, _ => []

/-- The tail of `_make_groups`' loop after the first item: an advancing
item closes the current group and opens a fresh one. -/
def makeGroupsGo : List (ℤ × ℤ × Bool × ℚ × ℚ) → GroupAcc → List GroupAcc
  | [], cur => [cur]
  | (i, m, a, w, s) :: rest, cur =>
      if a then cur :: makeGroupsGo rest (groupAdd freshGroup i m w s)
      else makeGroupsGo rest (groupAdd cur i m w s)

/-- Source `LinearContainer._make_groups`: fold consecutive
non-advancing items into groups (the first item always opens the first
group, `first` being true). -/
def make_groups (initial mins : List ℤ) (advances : List Bool)
    (weights sweights : List ℚ) : List GroupAcc :=
  match zip5 initial mins advances weights sweights with
  | [] => []
  | (i, m, _, w, s) :: rest => makeGroupsGo rest (groupAdd freshGroup i m w s)

/-- Source `LinearContainer._unpack_groups`: expand group-level values
back to per-item values, `sum(((v,) * l ...), ())`. -/
def unpack_groups : List ℤ → List ℕ → List ℤ
  | v :: vs, l :: ls => List.replicate l v ++ unpack_groups vs ls
  | _, _ => []

/-- The selection pass of one `_shrink` round
(`for i, w in enumerate(gsweights)`): the `(index, weight, diff)`
triples of the entries whose shrink weight is nonzero and whose
allotment still exceeds their minimum (`d = gmins[i] - r[i] < 0`). -/
def activeGo : ℕ → List (ℤ × ℤ × ℚ) → List (ℕ × ℚ × ℤ)
  | _, [] => []
  | i, (rv, mv, wv) :: rest =>
      if wv = 0 then activeGo (i + 1) rest
      else if 0 ≤ mv - rv then activeGo (i + 1) rest
      else (i, wv, mv - rv) :: activeGo (i + 1) rest

/-- The row-wise zip of the current allotments, minima and shrink
weights inspected by `_shrink`. -/
def zip3 : List ℤ → List ℤ → List ℚ → List (ℤ × ℤ × ℚ)
  | a :: as, b :: bs, c :: cs => (a, b, c) :: zip3 as bs cs
  | _, _, _ => []

/-- The indexed updates `r[idx] += inc` of a `_shrink` round. -/
def applyIncs : List ℤ → List (ℕ × ℤ) → List ℤ
  | r, [] => r
  | r, (idx, inc) :: rest => applyIncs (r.set idx (r.getD idx 0 + inc)) rest

/-- One round of the `while 1` loop of `_shrink`: `none` means the
`if not indices: break` exit (returning `r` unchanged); otherwise the
updated allotments, where each active entry moves by
`max(diff, weighted-share)`. -/
def shrinkStep (r : List ℤ) (full : ℤ) (gmins : List ℤ)
    (gsweights : List ℚ) : Option (List ℤ) :=
  let act := activeGo 0 (zip3 r gmins gsweights)
  if act.isEmpty then none
  else
    let wd := weight_distrib (full - r.sum) (act.map (fun t => t.2.1))
    let incs := List.zipWith max (act.map (fun t => t.2.2)) wd
    some (applyIncs r ((act.map (fun t => t.1)).zip incs))

/-- The `while 1` loop of `_shrink` with an explicit iteration budget:
each round either breaks (no active entries), reaches `sum(r) == full`
and breaks, or continues on the updated allotments. -/
def shrinkGo (full : ℤ) (gmins : List ℤ) (gsweights : List ℚ) :
    ℕ → List ℤ → List ℤ
  | 0, r => r
  | fuel + 1, r =>
      match shrinkStep r full gmins gsweights with
      | none => r
      | some r2 => if r2.sum = full then r2 else shrinkGo full gmins gsweights fuel r2

/-- Source `LinearContainer._shrink`.  The unbounded Python loop is run
with the budget `(sum(r) - full) + 1`: every round that neither breaks
nor reaches `full` strictly decreases `sum(r)` while keeping it above
`full` (established in the lemmas below for the runs the engine
performs), so the budget is never exhausted there. -/
def lc_shrink (r : List ℤ) (full : ℤ) (gmins : List ℤ)
    (gsweights : List ℚ) : List ℤ :=
  shrinkGo full gmins gsweights ((r.sum - full).toNat + 1) r

/-- Source `LinearContainer._distrib_normal`: group, then grow by
weighted split (STRETCH substitutes uniform weights when all growth
weights are zero; NORMAL returns the sizes unchanged in that case),
or shrink, then expand back to items. -/
def lc_distrib_normal (full : ℤ) (initial mins : List ℤ)
    (advances : List Bool) (weights sweights : List ℚ) (mode : Mode) : List ℤ :=
  let gs := make_groups initial mins advances weights sweights
  let glengths := gs.map (fun g => g.len)
  let gmins := gs.map (fun g => g.gmin)
  let gsizes := gs.map (fun g => g.gsize)
  let gweights0 := gs.map (fun g => g.gw)
  let gsweights := gs.map (fun g => g.gsw)
  if gweights0.sum = 0 ∧ mode ≠ Mode.stretch then unpack_groups gsizes glengths
  else
    let gweights :=
      if gweights0.sum = 0 then List.replicate gweights0.length 1 else gweights0
    let diff := full - gsizes.sum
    let r :=
      if 0 < diff then List.zipWith (· + ·) gsizes (weight_distrib diff gweights)
      else if diff < 0 then lc_shrink gsizes full gmins gsweights
      else gsizes
    unpack_groups r glengths

/-- The pinned-entry rewrite of one `_distrib_equal` round: entries whose
preferred size reaches their current share are pinned to the preferred
size; fitting entries receive the next value of the re-split. -/
def placeFits : List (ℤ × ℤ) → List ℤ → List ℤ
  | [], _ => []
  | (i, d) :: rest, ns =>
      if i < d then
        match ns with
        | [] => d :: placeFits rest []
        | n :: ns2 => n :: placeFits rest ns2
      else i :: placeFits rest ns

/-- The degrade-to-preferred `while True` loop of `_distrib_equal`, with
an explicit iteration budget (each continuing round pins at least one
new entry, so `len(initial) + 1` rounds suffice). -/
def equalFitGo (full : ℤ) : ℕ → List ℤ → List ℤ → List ℤ
  | 0, _, distr => distr
  | fuel + 1, initial, distr =>
      if (initial.zip distr).all (fun p => decide (p.1 ≤ p.2)) then distr
      else
        let used := (((initial.zip distr).filter
          (fun p => decide (¬p.1 < p.2))).map (fun p => p.1)).sum
        let numFit := ((initial.zip distr).filter (fun p => decide (p.1 < p.2))).length
        if numFit = 0 then
          List.zipWith (fun i d => if i < d then d else i) initial distr
        else
          equalFitGo full fuel initial
            (placeFits (initial.zip distr) (linear_distrib (full - used) numFit))

/-- Source `LinearContainer._distrib_equal`: start from an even split
over the items; unless EQUAL_FORCE, degrade to preferred sizes where the
share is exceeded, re-splitting the remainder, and shrink (with uniform
weights) if the result still exceeds `full`. -/
def lc_distrib_equal (full : ℤ) (initial mins : List ℤ)
    (advances : List Bool) (weights sweights : List ℚ) (mode : Mode) : List ℤ :=
  let gs := make_groups initial mins advances weights sweights
  let glengths := gs.map (fun g => g.len)
  let gmins := gs.map (fun g => g.gmin)
  let distr0 := linear_distrib full advances.length
  let distr :=
    if mode ≠ Mode.equalForce then
      let d1 := equalFitGo full (initial.length + 1) initial distr0
      if full < d1.sum then
        lc_shrink d1 full gmins (List.replicate gmins.length 1)
      else d1
    else distr0
  unpack_groups distr glengths

/-- Source `LinearContainer.distribute`: validate the list lengths
(raising the `Incoherent lists` ValueError otherwise), return `()` for
no items, and dispatch on the mode (the four Mode constants cover every
case, so the source's final `Invalid mode` branch is unreachable). -/
def distribute (full : ℤ) (initial mins : List ℤ) (advances : List Bool)
    (weights sweights : List ℚ) (mode : Mode) : Except String (List ℤ) :=
  if ¬(initial.length = mins.length ∧ initial.length = advances.length ∧
       initial.length = weights.length ∧ initial.length = sweights.length) then
    .error "Incoherent lists given to distribute()."
  else if initial.isEmpty then .ok []
  else
    match mode with
    | .normal | .stretch =>
        .ok (lc_distrib_normal full initial mins advances weights sweights mode)
    | .equal | .equalForce =>
        .ok (lc_distrib_equal full initial mins advances weights sweights mode)

/-! Structural lemmas about the grouping helpers, specialized to the
claims' situation: every item advances, so every item forms its own
group. -/

lemma zip5_proj : ∀ (as bs : List ℤ) (cs : List Bool) (ds es : List ℚ),
    as.length = bs.length → as.length = cs.length →
    as.length = ds.length → as.length = es.length →
    (zip5 as bs cs ds es).map (fun x => x.1) = as ∧
    (zip5 as bs cs ds es).map (fun x => x.2.1) = bs ∧
    (zip5 as bs cs ds es).map (fun x => x.2.2.1) = cs ∧
    (zip5 as bs cs ds es).map (fun x => x.2.2.2.1) = ds ∧
    (zip5 as bs cs ds es).map (fun x => x.2.2.2.2) = es := by
  intro as
  induction as with
  | nil =>
    intro bs cs ds es h1 h2 h3 h4
    have hb : bs = [] := List.length_eq_zero.mp h1.symm
    have hc : cs = [] := List.length_eq_zero.mp h2.symm
    have hd : ds = [] := List.length_eq_zero.mp h3.symm
    have he : es = [] := List.length_eq_zero.mp h4.symm
    subst hb hc hd he
    exact ⟨rfl, rfl, rfl, rfl, rfl⟩
  | cons a as ih =>
    intro bs cs ds es h1 h2 h3 h4
    match bs, cs, ds, es with
    | b :: bs, c :: cs, d :: ds, e :: es =>
      simp only [List.length_cons, Nat.succ_inj] at h1 h2 h3 h4
      obtain ⟨p1, p2, p3, p4, p5⟩ := ih bs cs ds es h1 h2 h3 h4
      exact ⟨by simp [zip5, p1], by simp [zip5, p2], by simp [zip5, p3],
        by simp [zip5, p4], by simp [zip5, p5]⟩

lemma makeGroupsGo_allAdv : ∀ (l : List (ℤ × ℤ × Bool × ℚ × ℚ)) (cur : GroupAcc),
    (∀ x ∈ l, x.2.2.1 = true) →
    makeGroupsGo l cur =
      cur :: l.map (fun x => groupAdd freshGroup x.1 x.2.1 x.2.2.2.1 x.2.2.2.2) := by
  intro l
  induction l with
  | nil => intro cur _; rfl
  | cons x rest ih =>
    intro cur h
    obtain ⟨i, m, a, w, s⟩ := x
    have ha : a = true := h _ (List.mem_cons_self _ _)
    subst ha
    rw [makeGroupsGo, if_pos rfl, ih _ (fun y hy => h y (List.mem_cons_of_mem _ hy))]
    rfl

lemma make_groups_allAdv (initial mins : List ℤ) (weights sweights : List ℚ)
    (h1 : initial.length = mins.length) (h2 : initial.length = weights.length)
    (h3 : initial.length = sweights.length) :
    make_groups initial mins (List.replicate initial.length true) weights sweights =
      (zip5 initial mins (List.replicate initial.length true) weights sweights).map
        (fun x => groupAdd freshGroup x.1 x.2.1 x.2.2.2.1 x.2.2.2.2) := by
  obtain ⟨-, -, p3, -, -⟩ := zip5_proj initial mins
    (List.replicate initial.length true) weights sweights h1
    (by simp) h2 h3
  have hadv : ∀ x ∈ zip5 initial mins (List.replicate initial.length true)
      weights sweights, x.2.2.1 = true := by
    intro x hx
    have : x.2.2.1 ∈ List.replicate initial.length true := by
      rw [← p3]; exact List.mem_map_of_mem _ hx
    exact (List.eq_of_mem_replicate this)
  rcases hz : zip5 initial mins (List.replicate initial.length true) weights sweights
    with _ | ⟨⟨i, m, a, w, s⟩, rest⟩
  · unfold make_groups
    rw [hz]
    rfl
  · unfold make_groups
    rw [hz]
    show makeGroupsGo rest (groupAdd freshGroup i m w s) = _
    rw [makeGroupsGo_allAdv rest _
      (fun y hy => hadv y (by rw [hz]; exact List.mem_cons_of_mem _ hy))]
    rfl

lemma map_max_zero {l : List ℤ} (h : ∀ x ∈ l, 0 ≤ x) :
    l.map (fun x => max 0 x) = l := by
  induction l with
  | nil => rfl
  | cons a l ih =>
    rw [List.map_cons, max_eq_right (h a (List.mem_cons_self a l)),
      ih (fun x hx => h x (List.mem_cons_of_mem a hx))]

/-- The five group-level lists of `_make_groups` when every item
advances (each item its own group), expressed over the raw inputs. -/
lemma groups_projections (initial mins : List ℤ) (weights sweights : List ℚ)
    (h1 : initial.length = mins.length) (h2 : initial.length = weights.length)
    (h3 : initial.length = sweights.length) :
    (make_groups initial mins (List.replicate initial.length true) weights
        sweights).map (fun g => g.len) = List.replicate initial.length 1 ∧
    (make_groups initial mins (List.replicate initial.length true) weights
        sweights).map (fun g => g.gmin) = mins.map (fun m => max 0 m) ∧
    (make_groups initial mins (List.replicate initial.length true) weights
        sweights).map (fun g => g.gsize) = initial.map (fun i => max 0 i) ∧
    (make_groups initial mins (List.replicate initial.length true) weights
        sweights).map (fun g => g.gw) = weights ∧
    (make_groups initial mins (List.replicate initial.length true) weights
        sweights).map (fun g => g.gsw) = sweights := by
  rw [make_groups_allAdv initial mins weights sweights h1 h2 h3]
  set Z := zip5 initial mins (List.replicate initial.length true) weights sweights
    with hZ
  obtain ⟨p1, p2, p3, p4, p5⟩ := zip5_proj initial mins
    (List.replicate initial.length true) weights sweights h1 (by simp) h2 h3
  have hlen : Z.length = initial.length := by
    have := congrArg List.length p1
    rwa [List.length_map] at this
  refine ⟨?_, ?_, ?_, ?_, ?_⟩
  · rw [List.map_map]
    have hc : ((fun g : GroupAcc => g.len) ∘
        (fun x : ℤ × ℤ × Bool × ℚ × ℚ =>
          groupAdd freshGroup x.1 x.2.1 x.2.2.2.1 x.2.2.2.2)) =
        (fun _ => 1) := rfl
    rw [hc, List.map_const', hlen]
  · rw [List.map_map, ← p2, List.map_map]
    rfl
  · rw [List.map_map, ← p1, List.map_map]
    rfl
  · rw [List.map_map, ← p4]
    rfl
  · rw [List.map_map, ← p5]
    rfl

lemma unpack_ones : ∀ (r : List ℤ) (n : ℕ), r.length = n →
    unpack_groups r (List.replicate n 1) = r := by
  intro r
  induction r with
  | nil => intro n h; subst h; rfl
  | cons v vs ih =>
    intro n h
    subst h
    rw [List.length_cons, List.replicate_succ, unpack_groups, ih vs.length rfl]
    rfl

lemma sum_zipWith_add : ∀ (a b : List ℤ), a.length = b.length →
    (List.zipWith (· + ·) a b).sum = a.sum + b.sum := by
  intro a
  induction a with
  | nil =>
    intro b h
    have : b = [] := List.length_eq_zero.mp h.symm
    subst this; rfl
  | cons x xs ih =>
    intro b h
    match b with
    | y :: ys =>
      simp only [List.length_cons, Nat.succ_inj] at h
      rw [List.zipWith_cons_cons, List.sum_cons, List.sum_cons, List.sum_cons, ih ys h]
      ring

lemma forall₂_le_sum {a b : List ℤ} (h : List.Forall₂ (· ≤ ·) a b) :
    a.sum ≤ b.sum := by
  induction h with
  | nil => exact le_refl 0
  | cons hab _ ih =>
    rw [List.sum_cons, List.sum_cons]
    exact add_le_add hab ih

lemma qsum_pos : ∀ (l : List ℚ), (∀ x ∈ l, 0 < x) → l ≠ [] → 0 < l.sum := by
  intro l
  induction l with
  | nil => intro _ h; exact absurd rfl h
  | cons x xs ih =>
    intro h _
    rw [List.sum_cons]
    rcases List.eq_nil_or_concat xs with hnil | -
    · subst hnil
      simpa using h x (List.mem_cons_self x [])
    · have hx := h x (List.mem_cons_self x xs)
      rcases eq_or_ne xs [] with hnil | hne
      · subst hnil; simpa using hx
      · have := ih (fun y hy => h y (List.mem_cons_of_mem x hy)) hne
        linarith

lemma applyIncs_length : ∀ (ps : List (ℕ × ℤ)) (r : List ℤ),
    (applyIncs r ps).length = r.length := by
  intro ps
  induction ps with
  | nil => intro r; rfl
  | cons p rest ih =>
    intro r
    obtain ⟨idx, inc⟩ := p
    rw [applyIncs, ih, List.length_set]

lemma shrinkStep_length {r r2 : List ℤ} {full : ℤ} {gmins : List ℤ}
    {gsweights : List ℚ} (h : shrinkStep r full gmins gsweights = some r2) :
    r2.length = r.length := by
  simp only [shrinkStep] at h
  split at h
  · cases h
  · cases h
    exact applyIncs_length _ _

lemma shrinkGo_length (full : ℤ) (gmins : List ℤ) (gsweights : List ℚ) :
    ∀ (fuel : ℕ) (r : List ℤ),
      (shrinkGo full gmins gsweights fuel r).length = r.length := by
  intro fuel
  induction fuel with
  | zero => intro r; rfl
  | succ fuel ih =>
    intro r
    rw [shrinkGo]
    split
    · rfl
    · rename_i r2 h2
      split
      · exact shrinkStep_length h2
      · rw [ih r2, shrinkStep_length h2]

lemma forall₂_le_nonneg {a b : List ℤ} (h : List.Forall₂ (· ≤ ·) a b)
    (ha : ∀ x ∈ a, 0 ≤ x) : ∀ y ∈ b, 0 ≤ y := by
  induction h with
  | nil => intro y hy; cases hy
  | cons hab htail ih =>
    intro y hy
    rcases List.mem_cons.mp hy with h | h
    · subst h
      exact le_trans (ha _ (List.mem_cons_self _ _)) hab
    · exact ih (fun x hx => ha x (List.mem_cons_of_mem _ hx)) y h

/-- The mode-STRETCH grow path of `_distrib_normal` with every item
advancing and all growth weights summing to zero: uniform weights are
substituted and the surplus is weight-distributed on top of the sizes. -/
lemma distrib_normal_stretch (full : ℤ) (initial mins : List ℤ)
    (weights sweights : List ℚ)
    (h1 : initial.length = mins.length) (h2 : initial.length = weights.length)
    (h3 : initial.length = sweights.length)
    (hi0 : ∀ x ∈ initial, 0 ≤ x)
    (hwsum : weights.sum = 0)
    (hdiff : 0 < full - initial.sum) :
    lc_distrib_normal full initial mins (List.replicate initial.length true)
        weights sweights Mode.stretch =
      List.zipWith (· + ·) initial
        (weight_distrib (full - initial.sum) (List.replicate initial.length 1)) := by
  obtain ⟨g1, g2, g3, g4, g5⟩ :=
    groups_projections initial mins weights sweights h1 h2 h3
  simp only [lc_distrib_normal]
  rw [g1, g2, g3, g4, g5, map_max_zero hi0]
  rw [if_neg (by simp), if_pos hwsum, if_pos hdiff]
  have hwl : weights.length = initial.length := h2.symm
  rw [hwl]
  refine unpack_ones _ _ ?_
  rw [List.length_zipWith, weight_distrib_length, List.length_replicate]
  omega

/-- The mode-NORMAL shrink path of `_distrib_normal` with every item
advancing, nonzero growth-weight sum and `full` below the total size. -/
lemma distrib_normal_shrink (full : ℤ) (initial mins : List ℤ)
    (weights sweights : List ℚ)
    (h1 : initial.length = mins.length) (h2 : initial.length = weights.length)
    (h3 : initial.length = sweights.length)
    (hm0 : ∀ x ∈ mins, 0 ≤ x) (hmi : List.Forall₂ (· ≤ ·) mins initial)
    (hwsum : weights.sum ≠ 0) (hdiff : full - initial.sum < 0) :
    lc_distrib_normal full initial mins (List.replicate initial.length true)
        weights sweights Mode.normal =
      unpack_groups (lc_shrink initial full mins sweights)
        (List.replicate initial.length 1) := by
  obtain ⟨g1, g2, g3, g4, g5⟩ :=
    groups_projections initial mins weights sweights h1 h2 h3
  have hi0 : ∀ x ∈ initial, 0 ≤ x := forall₂_le_nonneg hmi hm0
  simp only [lc_distrib_normal]
  rw [g1, g2, g3, g4, g5, map_max_zero hi0, map_max_zero hm0]
  rw [if_neg (by rintro ⟨h, -⟩; exact hwsum h),
    if_neg (by omega : ¬(0 < full - initial.sum)), if_pos hdiff]

/-- Shares of an all-equal positive weight list: each result entry is
the floor of the ideal common share or one more. -/
lemma weight_distrib_uniform (diff : ℤ) (n : ℕ) (hn : 0 < n) (hd : 0 < diff) :
    (weight_distrib diff (List.replicate n (1 : ℚ))).length = n ∧
    (weight_distrib diff (List.replicate n (1 : ℚ))).sum = diff ∧
    ∀ x ∈ weight_distrib diff (List.replicate n (1 : ℚ)),
      x = ⌊(diff : ℚ) / (n : ℚ)⌋ ∨ x = ⌊(diff : ℚ) / (n : ℚ)⌋ + 1 := by
  have hsw : (List.replicate n (1 : ℚ)).sum = (n : ℚ) := by
    rw [List.sum_replicate, nsmul_eq_mul, mul_one]
  have hne : List.replicate n (1 : ℚ) ≠ [] := by
    simp [List.replicate_eq_nil_iff]
    omega
  have hswne : (List.replicate n (1 : ℚ)).sum ≠ 0 := by
    rw [hsw]
    exact_mod_cast hn.ne'
  obtain ⟨heq, hsum⟩ := weight_distrib_eq_loop diff _ hd.ne' hne hswne
  refine ⟨weight_distrib_length _ _ |>.trans (List.length_replicate _ _), hsum, ?_⟩
  intro x hx
  rw [heq] at hx
  have hfr : (List.replicate n (1 : ℚ)).map
      (fun w => (diff : ℚ) * w / (List.replicate n (1 : ℚ)).sum) =
      List.replicate n ((diff : ℚ) / (n : ℚ)) := by
    rw [List.map_replicate, hsw, mul_one]
  rw [hfr] at hx
  exact wdLoop_mem_const ((diff : ℚ) / (n : ℚ)) _ 0
    (fun f hf => List.eq_of_mem_replicate hf) le_rfl one_pos x hx

/-- C5 counterexample: with no children at all, `distribute` returns
`()` regardless of `full`, so for `full = 5 > 0 = Σsizes` the result
does not sum to `full`; the claim needs at least one item. -/
theorem cwidgets_C5_cex :
    distribute 5 [] [] [] [] [] Mode.stretch = Except.ok [] ∧
    ([] : List ℤ).sum ≠ (5 : ℤ) := by
  constructor
  · rfl
  · decide

/-- C5 (amended): in MODE_STRETCH with all growth weights zero, every
item advancing, at least one item, nonnegative sizes and
`full > Σsizes`, the surplus is distributed with substituted uniform
weights: the result sums to `full` and equals the sizes plus
nonnegative per-group increments that pairwise differ by at most 1. -/
theorem cwidgets_C5 (full : ℤ) (initial mins : List ℤ)
    (weights sweights : List ℚ)
    (hne : initial ≠ [])
    (h1 : initial.length = mins.length) (h2 : initial.length = weights.length)
    (h3 : initial.length = sweights.length)
    (hw0 : weights.sum = 0)
    (hi0 : ∀ x ∈ initial, 0 ≤ x)
    (hfull : initial.sum < full) :
    ∃ r, distribute full initial mins (List.replicate initial.length true)
        weights sweights Mode.stretch = Except.ok r ∧
      r.sum = full ∧
      ∃ incs, r = List.zipWith (· + ·) initial incs ∧
        incs.length = initial.length ∧
        (∀ x ∈ incs, 0 ≤ x) ∧ (∀ x ∈ incs, ∀ y ∈ incs, x - y ≤ 1) := by
  have hn : 0 < initial.length := List.length_pos.mpr hne
  have hdiff : 0 < full - initial.sum := by omega
  obtain ⟨hlen, hsum, hmem⟩ :=
    weight_distrib_uniform (full - initial.sum) initial.length hn hdiff
  set incs := weight_distrib (full - initial.sum)
    (List.replicate initial.length (1 : ℚ)) with hincs
  have hq0 : (0 : ℤ) ≤ ⌊((full - initial.sum : ℤ) : ℚ) / (initial.length : ℚ)⌋ := by
    apply Int.floor_nonneg.mpr
    apply div_nonneg
    · exact_mod_cast hdiff.le
    · exact_mod_cast (Nat.zero_le initial.length)
  refine ⟨List.zipWith (· + ·) initial incs, ?_, ?_, incs, rfl, hlen, ?_, ?_⟩
  · rw [distribute, if_neg (not_not_intro
      ⟨h1, by rw [List.length_replicate], h2, h3⟩),
      if_neg (by simp [hne])]
    rw [distrib_normal_stretch full initial mins weights sweights h1 h2 h3
      hi0 hw0 hdiff]
  · rw [sum_zipWith_add initial incs (by omega)]
    omega
  · intro x hx
    rcases hmem x hx with h | h <;> omega
  · intro x hx y hy
    rcases hmem x hx with h | h <;> rcases hmem y hy with h' | h' <;> omega

/-- C5 witness: the spec's end-to-end instance — three advancing
children of preferred widths 5, 10, 15, growth weight 0, laid out into
width 40 in MODE_STRETCH. -/
theorem cwidgets_C5_witness :
    ∃ r, distribute 40 [5, 10, 15] [0, 0, 0]
        (List.replicate ([5, 10, 15] : List ℤ).length true) [0, 0, 0] [1, 1, 1]
        Mode.stretch = Except.ok r ∧
      r.sum = 40 ∧
      ∃ incs, r = List.zipWith (· + ·) [5, 10, 15] incs ∧
        incs.length = ([5, 10, 15] : List ℤ).length ∧
        (∀ x ∈ incs, 0 ≤ x) ∧ (∀ x ∈ incs, ∀ y ∈ incs, x - y ≤ 1) :=
  cwidgets_C5 40 [5, 10, 15] [0, 0, 0] [0, 0, 0] [1, 1, 1] (by decide)
    (by decide) (by decide) (by decide) (by norm_num) (by decide) (by decide)

/-! Analysis of one `_shrink` round.  The indexed updates of
`applyIncs` over the active triples are shown equal to a pointwise walk
(`pointwiseRound`) over the allotments, minima and shrink weights,
consuming the weighted shares in order; the round's invariants are then
plain structural inductions over that walk. -/

/-- Specification-side pointwise description of one `_shrink` round:
inactive rows (zero weight or already at/below minimum) are untouched,
each active row receives `max(min - allotment, next weighted share)`. -/
def pointwiseRound : List ℤ → List ℤ → List ℚ → List ℤ → List ℤ
  | rv :: rs, mv :: ms, wv :: ss, wd =>
      if wv = 0 ∨ 0 ≤ mv - rv then rv :: pointwiseRound rs ms ss wd
      else
        match wd with
        | [] => rv :: pointwiseRound rs ms ss []
        | x :: wd2 => (rv + max (mv - rv) x) :: pointwiseRound rs ms ss wd2
  | r, _, _, _ => r

/-- The number of active rows selected by a `_shrink` round. -/
def countA : List ℤ → List ℤ → List ℚ → ℕ
  | rv :: rs, mv :: ms, wv :: ss =>
      (if wv = 0 ∨ 0 ≤ mv - rv then 0 else 1) + countA rs ms ss
  | _, _, _ => 0

lemma activeGo_shift : ∀ (l : List (ℤ × ℤ × ℚ)) (k : ℕ),
    activeGo (k + 1) l = (activeGo k l).map (fun t => (t.1 + 1, t.2)) := by
  intro l
  induction l with
  | nil => intro k; rfl
  | cons row rest ih =>
    intro k
    obtain ⟨rv, mv, wv⟩ := row
    rw [activeGo, activeGo]
    by_cases h0 : wv = 0
    · rw [if_pos h0, if_pos h0, ih]
    · rw [if_neg h0, if_neg h0]
      by_cases h1 : 0 ≤ mv - rv
      · rw [if_pos h1, if_pos h1, ih]
      · rw [if_neg h1, if_neg h1, List.map_cons, ih]

lemma countA_eq : ∀ (r M : List ℤ) (S : List ℚ) (k : ℕ),
    (activeGo k (zip3 r M S)).length = countA r M S := by
  intro r
  induction r with
  | nil => intro M S k; rfl
  | cons rv rs ih =>
    intro M S k
    match M, S with
    | [], _ => rfl
    | _ :: _, [] => rfl
    | mv :: ms, wv :: ss =>
      rw [zip3, activeGo, countA]
      by_cases h0 : wv = 0
      · rw [if_pos h0, if_pos (Or.inl h0), ih]
        omega
      · rw [if_neg h0]
        by_cases h1 : 0 ≤ mv - rv
        · rw [if_pos h1, if_pos (Or.inr h1), ih]
          omega
        · rw [if_neg h1, if_neg (by tauto), List.length_cons, ih]
          omega

lemma applyIncs_shift : ∀ (pairs : List (ℕ × ℤ)) (rv : ℤ) (rs : List ℤ),
    applyIncs (rv :: rs) (pairs.map (fun p => (p.1 + 1, p.2))) =
      rv :: applyIncs rs pairs := by
  intro pairs
  induction pairs with
  | nil => intro rv rs; rfl
  | cons p rest ih =>
    intro rv rs
    obtain ⟨i, v⟩ := p
    rw [List.map_cons, applyIncs, applyIncs]
    have hset : (rv :: rs).set (i + 1) ((rv :: rs).getD (i + 1) 0 + v) =
        rv :: rs.set i (rs.getD i 0 + v) := rfl
    rw [hset, ih]

lemma pointwiseRound_cons (rv mv : ℤ) (rs ms : List ℤ) (wv : ℚ) (ss : List ℚ)
    (wd : List ℤ) :
    pointwiseRound (rv :: rs) (mv :: ms) (wv :: ss) wd =
      if wv = 0 ∨ 0 ≤ mv - rv then rv :: pointwiseRound rs ms ss wd
      else
        match wd with
        | [] => rv :: pointwiseRound rs ms ss []
        | x :: wd2 => (rv + max (mv - rv) x) :: pointwiseRound rs ms ss wd2 := rfl

lemma countA_cons (rv mv : ℤ) (rs ms : List ℤ) (wv : ℚ) (ss : List ℚ) :
    countA (rv :: rs) (mv :: ms) (wv :: ss) =
      (if wv = 0 ∨ 0 ≤ mv - rv then 0 else 1) + countA rs ms ss := rfl

lemma zip3_cons (a b : ℤ) (c : ℚ) (as bs : List ℤ) (cs : List ℚ) :
    zip3 (a :: as) (b :: bs) (c :: cs) = (a, b, c) :: zip3 as bs cs := rfl

lemma activeGo_cons (i : ℕ) (rv mv : ℤ) (wv : ℚ) (rest : List (ℤ × ℤ × ℚ)) :
    activeGo i ((rv, mv, wv) :: rest) =
      if wv = 0 then activeGo (i + 1) rest
      else if 0 ≤ mv - rv then activeGo (i + 1) rest
      else (i, wv, mv - rv) :: activeGo (i + 1) rest := rfl

lemma act_pairs_shift (A : List (ℕ × ℚ × ℤ)) (wd : List ℤ) :
    (List.map (fun t => t.1 + 1) A).zip
        (List.zipWith max (List.map (fun t => t.2.2) A) wd) =
      ((List.map (fun t => t.1) A).zip
        (List.zipWith max (List.map (fun t => t.2.2) A) wd)).map
        (fun p => (p.1 + 1, p.2)) := by
  rw [show (fun t : ℕ × ℚ × ℤ => t.1 + 1) =
      ((fun x : ℕ => x + 1) ∘ (fun t : ℕ × ℚ × ℤ => t.1)) from rfl,
    ← List.map_map, List.zip_map_left]
  rfl

/-- The fusion lemma: the indexed update pass of a `_shrink` round
equals the pointwise walk, provided exactly one share is supplied per
active row. -/
lemma applyIncs_eq_pointwise : ∀ (r M : List ℤ) (S : List ℚ) (wd : List ℤ),
    wd.length = countA r M S →
    applyIncs r
      (((activeGo 0 (zip3 r M S)).map (fun t => t.1)).zip
        (List.zipWith max ((activeGo 0 (zip3 r M S)).map (fun t => t.2.2)) wd)) =
    pointwiseRound r M S wd := by
  intro r
  induction r with
  | nil => intro M S wd _; rfl
  | cons rv rs ih =>
    intro M S wd hlen
    match M, S with
    | [], _ => rfl
    | _ :: _, [] => rfl
    | mv :: ms, wv :: ss =>
      rw [countA_cons] at hlen
      rw [zip3_cons, activeGo_cons, pointwiseRound_cons]
      by_cases h0 : wv = 0
      · rw [if_pos (Or.inl h0 : wv = 0 ∨ 0 ≤ mv - rv)] at hlen
        rw [if_pos h0, if_pos (Or.inl h0 : wv = 0 ∨ 0 ≤ mv - rv)]
        rw [activeGo_shift, List.map_map, List.map_map,
          show ((fun t : ℕ × ℚ × ℤ => t.1) ∘ (fun t : ℕ × ℚ × ℤ => (t.1 + 1, t.2))) =
            (fun t : ℕ × ℚ × ℤ => t.1 + 1) from rfl,
          show ((fun t : ℕ × ℚ × ℤ => t.2.2) ∘ (fun t : ℕ × ℚ × ℤ => (t.1 + 1, t.2))) =
            (fun t : ℕ × ℚ × ℤ => t.2.2) from rfl,
          act_pairs_shift, applyIncs_shift, ih ms ss wd (by omega)]
      · rw [if_neg h0]
        by_cases h1 : 0 ≤ mv - rv
        · rw [if_pos (Or.inr h1 : wv = 0 ∨ 0 ≤ mv - rv)] at hlen
          rw [if_pos h1, if_pos (Or.inr h1 : wv = 0 ∨ 0 ≤ mv - rv)]
          rw [activeGo_shift, List.map_map, List.map_map,
            show ((fun t : ℕ × ℚ × ℤ => t.1) ∘ (fun t : ℕ × ℚ × ℤ => (t.1 + 1, t.2))) =
              (fun t : ℕ × ℚ × ℤ => t.1 + 1) from rfl,
            show ((fun t : ℕ × ℚ × ℤ => t.2.2) ∘ (fun t : ℕ × ℚ × ℤ => (t.1 + 1, t.2))) =
              (fun t : ℕ × ℚ × ℤ => t.2.2) from rfl,
            act_pairs_shift, applyIncs_shift, ih ms ss wd (by omega)]
        · rw [if_neg (show ¬(wv = 0 ∨ 0 ≤ mv - rv) by tauto)] at hlen
          rw [if_neg h1, if_neg (show ¬(wv = 0 ∨ 0 ≤ mv - rv) by tauto)]
          match wd, hlen with
          | [], hlen => rw [List.length_nil] at hlen; omega
          | x :: wd2, hlen =>
            rw [List.map_cons, List.map_cons, List.zipWith_cons_cons, List.zip_cons_cons,
              applyIncs]
            have hset : (rv :: rs).set 0 ((rv :: rs).getD 0 0 + max (mv - rv) x) =
                (rv + max (mv - rv) x) :: rs := rfl
            rw [hset, activeGo_shift, List.map_map, List.map_map,
              show ((fun t : ℕ × ℚ × ℤ => t.1) ∘ (fun t : ℕ × ℚ × ℤ => (t.1 + 1, t.2))) =
                (fun t : ℕ × ℚ × ℤ => t.1 + 1) from rfl,
              show ((fun t : ℕ × ℚ × ℤ => t.2.2) ∘ (fun t : ℕ × ℚ × ℤ => (t.1 + 1, t.2))) =
                (fun t : ℕ × ℚ × ℤ => t.2.2) from rfl,
              act_pairs_shift, applyIncs_shift,
              ih ms ss wd2 (by rw [List.length_cons] at hlen; omega)]

lemma pointwiseRound_length : ∀ (r M : List ℤ) (S : List ℚ) (wd : List ℤ),
    (pointwiseRound r M S wd).length = r.length := by
  intro r
  induction r with
  | nil => intro M S wd; rfl
  | cons rv rs ih =>
    intro M S wd
    match M, S with
    | [], _ => rfl
    | _ :: _, [] => rfl
    | mv :: ms, wv :: ss =>
      rw [pointwiseRound_cons]
      by_cases h : wv = 0 ∨ 0 ≤ mv - rv
      · rw [if_pos h, List.length_cons, List.length_cons, ih]
      · rw [if_neg h]
        match wd with
        | [] => simp [ih]
        | x :: wd2 => simp [ih]

lemma pointwiseRound_mono : ∀ (r M : List ℤ) (S : List ℚ) (wd : List ℤ),
    List.Forall₂ (· ≤ ·) M r → List.Forall₂ (· ≤ ·) M (pointwiseRound r M S wd) := by
  intro r
  induction r with
  | nil => intro M S wd h; exact h
  | cons rv rs ih =>
    intro M S wd h
    match M, S with
    | [], _ => exact h
    | _ :: _, [] => exact h
    | mv :: ms, wv :: ss =>
      rcases h with - | ⟨hle, htail⟩
      rw [pointwiseRound_cons]
      by_cases hc : wv = 0 ∨ 0 ≤ mv - rv
      · rw [if_pos hc]
        exact List.Forall₂.cons hle (ih ms ss wd htail)
      · rw [if_neg hc]
        match wd with
        | [] => exact List.Forall₂.cons hle (ih ms ss [] htail)
        | x :: wd2 =>
          refine List.Forall₂.cons ?_ (ih ms ss wd2 htail)
          have := le_max_left (mv - rv) x
          omega

lemma pointwiseRound_sum_le : ∀ (r M : List ℤ) (S : List ℚ) (wd : List ℤ),
    (∀ x ∈ wd, x ≤ 0) → (pointwiseRound r M S wd).sum ≤ r.sum := by
  intro r
  induction r with
  | nil => intro M S wd _; exact le_refl _
  | cons rv rs ih =>
    intro M S wd hwd
    match M, S with
    | [], _ => exact le_refl _
    | _ :: _, [] => exact le_refl _
    | mv :: ms, wv :: ss =>
      rw [pointwiseRound_cons]
      by_cases hc : wv = 0 ∨ 0 ≤ mv - rv
      · rw [if_pos hc, List.sum_cons, List.sum_cons]
        have := ih ms ss wd hwd
        omega
      · rw [if_neg hc]
        match wd with
        | [] =>
          rw [List.sum_cons, List.sum_cons]
          have := ih ms ss [] (by intro x hx; cases hx)
          omega
        | x :: wd2 =>
          rw [List.sum_cons, List.sum_cons]
          have hrec := ih ms ss wd2
            (fun y hy => hwd y (List.mem_cons_of_mem x hy))
          have hd : mv - rv < 0 := by
            rcases not_or.mp hc with ⟨-, h2⟩
            omega
          have hx : x ≤ 0 := hwd x (List.mem_cons_self x wd2)
          have hmax : max (mv - rv) x ≤ 0 := max_le (by omega) hx
          omega

lemma pointwiseRound_sum_ge : ∀ (r M : List ℤ) (S : List ℚ) (wd : List ℤ),
    wd.length = countA r M S →
    r.sum + wd.sum ≤ (pointwiseRound r M S wd).sum := by
  intro r
  induction r with
  | nil =>
    intro M S wd hlen
    have : wd = [] := List.length_eq_zero.mp hlen
    subst this
    simp [pointwiseRound]
  | cons rv rs ih =>
    intro M S wd hlen
    match M, S with
    | [], _ =>
      have : wd = [] := List.length_eq_zero.mp hlen
      subst this
      simp [pointwiseRound, countA]
    | _ :: _, [] =>
      have : wd = [] := List.length_eq_zero.mp hlen
      subst this
      simp [pointwiseRound, countA]
    | mv :: ms, wv :: ss =>
      rw [countA_cons] at hlen
      rw [pointwiseRound_cons]
      by_cases hc : wv = 0 ∨ 0 ≤ mv - rv
      · rw [if_pos hc] at hlen
        rw [if_pos hc, List.sum_cons, List.sum_cons]
        have := ih ms ss wd (by omega)
        omega
      · rw [if_neg hc] at hlen
        rw [if_neg hc]
        match wd, hlen with
        | [], hlen => rw [List.length_nil] at hlen; omega
        | x :: wd2, hlen =>
          rw [List.length_cons] at hlen
          rw [List.sum_cons, List.sum_cons, List.sum_cons]
          have hrec := ih ms ss wd2 (by omega)
          have hmax : x ≤ max (mv - rv) x := le_max_right _ _
          omega

lemma pointwiseRound_sum_lt : ∀ (r M : List ℤ) (S : List ℚ) (wd : List ℤ),
    wd.length = countA r M S → (∀ x ∈ wd, x ≤ 0) → wd.sum < 0 →
    (pointwiseRound r M S wd).sum < r.sum := by
  intro r
  induction r with
  | nil =>
    intro M S wd hlen _ hneg
    have : wd = [] := List.length_eq_zero.mp hlen
    subst this
    simp at hneg
  | cons rv rs ih =>
    intro M S wd hlen hwd hneg
    match M, S with
    | [], _ =>
      have : wd = [] := List.length_eq_zero.mp hlen
      subst this
      simp at hneg
    | _ :: _, [] =>
      have : wd = [] := List.length_eq_zero.mp hlen
      subst this
      simp at hneg
    | mv :: ms, wv :: ss =>
      rw [countA_cons] at hlen
      rw [pointwiseRound_cons]
      by_cases hc : wv = 0 ∨ 0 ≤ mv - rv
      · rw [if_pos hc] at hlen
        rw [if_pos hc, List.sum_cons, List.sum_cons]
        have := ih ms ss wd (by omega) hwd hneg
        omega
      · rw [if_neg hc] at hlen
        rw [if_neg hc]
        have hd : mv - rv < 0 := by
          rcases not_or.mp hc with ⟨-, h2⟩
          omega
        match wd, hlen, hwd, hneg with
        | [], hlen, _, _ => rw [List.length_nil] at hlen; omega
        | x :: wd2, hlen, hwd, hneg =>
          rw [List.length_cons] at hlen
          rw [List.sum_cons] at hneg
          rw [List.sum_cons, List.sum_cons]
          have hx : x ≤ 0 := hwd x (List.mem_cons_self x wd2)
          have hwd2 : ∀ y ∈ wd2, y ≤ 0 :=
            fun y hy => hwd y (List.mem_cons_of_mem x hy)
          by_cases hx0 : x < 0
          · have hmax : max (mv - rv) x < 0 := max_lt (by omega) hx0
            have hrec := pointwiseRound_sum_le rs ms ss wd2 hwd2
            omega
          · have hx' : x = 0 := by omega
            subst hx'
            have hmax : max (mv - rv) (0 : ℤ) = 0 := max_eq_right (by omega)
            have hrec := ih ms ss wd2 (by omega) hwd2 (by omega)
            omega

lemma activeGo_nil_pinned : ∀ (r M : List ℤ) (S : List ℚ) (k : ℕ),
    r.length = M.length → M.length = S.length → (∀ s ∈ S, 0 < s) →
    List.Forall₂ (· ≤ ·) M r → activeGo k (zip3 r M S) = [] → r = M := by
  intro r
  induction r with
  | nil =>
    intro M S k hlen _ _ _ _
    exact (List.length_eq_zero.mp hlen.symm).symm
  | cons rv rs ih =>
    intro M S k hlen1 hlen2 hS hmono hact
    match M, S with
    | mv :: ms, wv :: ss =>
      rcases hmono with - | ⟨hle, htail⟩
      rw [zip3_cons, activeGo_cons] at hact
      have hwv : 0 < wv := hS wv (List.mem_cons_self wv ss)
      rw [if_neg hwv.ne'] at hact
      by_cases h1 : 0 ≤ mv - rv
      · rw [if_pos h1] at hact
        have : rs = ms := ih ms ss (k + 1) (by simpa using hlen1)
          (by simpa using hlen2) (fun s hs => hS s (List.mem_cons_of_mem wv hs))
          htail hact
        subst this
        have : rv = mv := by omega
        rw [this]
      · rw [if_neg h1] at hact
        cases hact

lemma activeGo_weights_pos : ∀ (r M : List ℤ) (S : List ℚ) (k : ℕ),
    (∀ s ∈ S, 0 < s) →
    ∀ t ∈ activeGo k (zip3 r M S), 0 < t.2.1 := by
  intro r
  induction r with
  | nil => intro M S k _ t ht; cases ht
  | cons rv rs ih =>
    intro M S k hS t ht
    match M, S with
    | [], _ => cases ht
    | _ :: _, [] => cases ht
    | mv :: ms, wv :: ss =>
      rw [zip3_cons, activeGo_cons] at ht
      have hSs : ∀ s ∈ ss, 0 < s := fun s hs => hS s (List.mem_cons_of_mem wv hs)
      by_cases h0 : wv = 0
      · rw [if_pos h0] at ht
        exact ih ms ss (k + 1) hSs t ht
      · rw [if_neg h0] at ht
        by_cases h1 : 0 ≤ mv - rv
        · rw [if_pos h1] at ht
          exact ih ms ss (k + 1) hSs t ht
        · rw [if_neg h1] at ht
          rcases List.mem_cons.mp ht with h | h
          · subst h
            exact hS wv (List.mem_cons_self wv ss)
          · exact ih ms ss (k + 1) hSs t h

lemma wdLoop_mem_nonpos : ∀ (fs : List ℚ) (rem : ℚ), (∀ f ∈ fs, f < 0) →
    0 ≤ rem → rem < 1 → ∀ x ∈ (wdLoop fs rem).1, x ≤ 0 := by
  intro fs
  induction fs with
  | nil => intro rem _ _ _ x hx; simp [wdLoop] at hx
  | cons f fs ih =>
    intro rem hneg h0 h1 x hx
    have hf : f < 0 := hneg f (List.mem_cons_self f fs)
    simp only [wdLoop, List.mem_cons] at hx
    rcases hx with h | h
    · have hfl : (⌊f⌋ : ℚ) ≤ f := Int.floor_le f
      have hfl1 : f < (⌊f⌋ : ℚ) + 1 := Int.lt_floor_add_one f
      have hneg1 : ⌊f⌋ < 0 := by
        rw [Int.floor_lt]
        exact_mod_cast hf
      have hi1 : ⌊rem + (f - (⌊f⌋ : ℚ))⌋ < 2 := by
        rw [Int.floor_lt]
        push_cast
        linarith
      omega
    · refine ih _ (fun g hg => hneg g (List.mem_cons_of_mem f hg)) ?_ ?_ x h
      · have := Int.floor_le (rem + (f - (⌊f⌋ : ℚ)))
        linarith
      · have := Int.lt_floor_add_one (rem + (f - (⌊f⌋ : ℚ)))
        linarith

lemma weight_distrib_neg_nonpos (full : ℤ) (ws : List ℚ) (hf : full < 0)
    (hw : ∀ w ∈ ws, 0 < w) (hne : ws ≠ []) :
    ∀ x ∈ weight_distrib full ws, x ≤ 0 := by
  have hsw : 0 < ws.sum := qsum_pos ws hw hne
  intro x hx
  rw [(weight_distrib_eq_loop full ws (by omega) hne hsw.ne').1] at hx
  refine wdLoop_mem_nonpos _ 0 ?_ le_rfl one_pos x hx
  intro f hfm
  rcases List.mem_map.mp hfm with ⟨w, hwm, rfl⟩
  have hfq : (full : ℚ) < 0 := by exact_mod_cast hf
  exact div_neg_of_neg_of_pos (mul_neg_of_neg_of_pos hfq (hw w hwm)) hsw

/-- One successful `_shrink` round, under positive shrink weights and a
sum still above `full`: it preserves length and the at-least-minimum
invariant, keeps the sum at or above `full`, and strictly decreases it. -/
lemma shrinkStep_some_spec {full : ℤ} {r M : List ℤ} {S : List ℚ} {r2 : List ℤ}
    (hS : ∀ s ∈ S, 0 < s) (hsum : full < r.sum)
    (hstep : shrinkStep r full M S = some r2) :
    r2.length = r.length ∧
    (List.Forall₂ (· ≤ ·) M r → List.Forall₂ (· ≤ ·) M r2) ∧
    full ≤ r2.sum ∧ r2.sum < r.sum := by
  simp only [shrinkStep] at hstep
  split at hstep
  · cases hstep
  · rename_i hne
    have hact_ne : activeGo 0 (zip3 r M S) ≠ [] := by
      intro h
      rw [h] at hne
      exact hne rfl
    have hws_ne : (activeGo 0 (zip3 r M S)).map (fun t => t.2.1) ≠ [] := by
      intro h
      exact hact_ne (List.map_eq_nil_iff.mp h)
    have hws_pos : ∀ w ∈ (activeGo 0 (zip3 r M S)).map (fun t => t.2.1), 0 < w := by
      intro w hw
      rcases List.mem_map.mp hw with ⟨t, ht, rfl⟩
      exact activeGo_weights_pos r M S 0 hS t ht
    have hsw : 0 < ((activeGo 0 (zip3 r M S)).map (fun t => t.2.1)).sum :=
      qsum_pos _ hws_pos hws_ne
    have hneg : full - r.sum < 0 := by omega
    set wd := weight_distrib (full - r.sum)
      ((activeGo 0 (zip3 r M S)).map (fun t => t.2.1)) with hwd
    have hwd_sum : wd.sum = full - r.sum :=
      (weight_distrib_eq_loop _ _ (by omega) hws_ne hsw.ne').2
    have hwd_len : wd.length = countA r M S := by
      rw [hwd, weight_distrib_length, List.length_map, countA_eq]
    have hwd_np : ∀ x ∈ wd, x ≤ 0 :=
      weight_distrib_neg_nonpos _ _ hneg hws_pos hws_ne
    injection hstep with h
    have hr2 : r2 = pointwiseRound r M S wd := by
      rw [← h]
      exact applyIncs_eq_pointwise r M S wd hwd_len
    refine ⟨?_, ?_, ?_, ?_⟩
    · rw [hr2]
      exact pointwiseRound_length r M S wd
    · intro hmono
      rw [hr2]
      exact pointwiseRound_mono r M S wd hmono
    · rw [hr2]
      have := pointwiseRound_sum_ge r M S wd hwd_len
      omega
    · rw [hr2]
      exact pointwiseRound_sum_lt r M S wd hwd_len hwd_np (by omega)

/-- The `_shrink` loop, given enough fuel: the result keeps the length
and the at-least-minimum invariant, its sum is at least `full`, and it
either meets `full` exactly or is pinned at the minima. -/
lemma shrinkGo_spec {M : List ℤ} {S : List ℚ} {full : ℤ}
    (hlen2 : M.length = S.length) (hS : ∀ s ∈ S, 0 < s) :
    ∀ (fuel : ℕ) (r : List ℤ), r.length = M.length →
      List.Forall₂ (· ≤ ·) M r → full < r.sum →
      (r.sum - full).toNat < fuel →
      (shrinkGo full M S fuel r).length = M.length ∧
      List.Forall₂ (· ≤ ·) M (shrinkGo full M S fuel r) ∧
      full ≤ (shrinkGo full M S fuel r).sum ∧
      ((shrinkGo full M S fuel r).sum = full ∨ shrinkGo full M S fuel r = M) := by
  intro fuel
  induction fuel with
  | zero =>
    intro r _ _ hsum hbound
    omega
  | succ fuel ih =>
    intro r hlen hmono hsum hbound
    rw [shrinkGo]
    cases hstep : shrinkStep r full M S with
    | none =>
      dsimp only
      have hact : activeGo 0 (zip3 r M S) = [] := by
        simp only [shrinkStep] at hstep
        split at hstep
        · rename_i hemp
          exact List.isEmpty_iff.mp hemp
        · cases hstep
      have hrM : r = M := activeGo_nil_pinned r M S 0 hlen hlen2 hS hmono hact
      exact ⟨hlen, hmono, by omega, Or.inr hrM⟩
    | some r2 =>
      dsimp only
      obtain ⟨hl2, hm2, hge2, hlt2⟩ := shrinkStep_some_spec hS hsum hstep
      by_cases hfull2 : r2.sum = full
      · rw [if_pos hfull2]
        exact ⟨hl2.trans hlen, hm2 hmono, le_of_eq hfull2.symm, Or.inl hfull2⟩
      · rw [if_neg hfull2]
        exact ih r2 (hl2.trans hlen) (hm2 hmono)
          (lt_of_le_of_ne hge2 (Ne.symm hfull2)) (by omega)

/-- Source `_shrink` with its chosen budget, started from the sizes:
the budget is strictly larger than `sum(r) - full`, so the loop runs to
one of its two exits. -/
lemma lc_shrink_spec {M : List ℤ} {S : List ℚ} {full : ℤ} {r : List ℤ}
    (hlen1 : r.length = M.length) (hlen2 : M.length = S.length)
    (hS : ∀ s ∈ S, 0 < s) (hmono : List.Forall₂ (· ≤ ·) M r)
    (hsum : full < r.sum) :
    (lc_shrink r full M S).length = M.length ∧
    List.Forall₂ (· ≤ ·) M (lc_shrink r full M S) ∧
    full ≤ (lc_shrink r full M S).sum ∧
    ((lc_shrink r full M S).sum = full ∨ lc_shrink r full M S = M) :=
  shrinkGo_spec hlen2 hS ((r.sum - full).toNat + 1) r hlen1 hmono hsum (by omega)

lemma distribute_normal_reduce (full : ℤ) (initial mins : List ℤ)
    (weights sweights : List ℚ)
    (h1 : initial.length = mins.length) (h2 : initial.length = weights.length)
    (h3 : initial.length = sweights.length) (hne : initial ≠ []) :
    distribute full initial mins (List.replicate initial.length true)
        weights sweights Mode.normal =
      Except.ok (lc_distrib_normal full initial mins
        (List.replicate initial.length true) weights sweights Mode.normal) := by
  rw [distribute, if_neg (not_not_intro
    ⟨h1, by rw [List.length_replicate], h2, h3⟩), if_neg (by simp [hne])]

/-- The mode-NORMAL early return of `_distrib_normal` when all growth
weights sum to zero: the sizes come back unchanged, whatever `full`. -/
lemma distrib_normal_zero_weights (full : ℤ) (initial mins : List ℤ)
    (weights sweights : List ℚ)
    (h1 : initial.length = mins.length) (h2 : initial.length = weights.length)
    (h3 : initial.length = sweights.length)
    (hi0 : ∀ x ∈ initial, 0 ≤ x) (hwsum : weights.sum = 0) :
    lc_distrib_normal full initial mins (List.replicate initial.length true)
        weights sweights Mode.normal = initial := by
  obtain ⟨g1, g2, g3, g4, g5⟩ :=
    groups_projections initial mins weights sweights h1 h2 h3
  simp only [lc_distrib_normal]
  rw [g1, g3, g4, map_max_zero hi0,
    if_pos (⟨hwsum, by decide⟩ : weights.sum = 0 ∧ Mode.normal ≠ Mode.stretch),
    unpack_ones _ _ rfl]

/-- C1 counterexamples.  First: in MODE_NORMAL with all growth weights
zero, `_distrib_normal` returns the sizes unchanged before ever
shrinking, so with `Σmins = 0 ≤ 12 < 30 = Σsizes` and all shrink
weights 1 the result sums to 30, not 12.  Second: when
`full = 1 < 4 = Σmins`, `_shrink` pins every entry at its minimum and
returns `[2, 2]`, which sums to 4, not `full`. -/
theorem cwidgets_C1_cex :
    (distribute 12 [5, 10, 15] [0, 0, 0] [true, true, true] [0, 0, 0] [1, 1, 1]
        Mode.normal = Except.ok [5, 10, 15] ∧ ((5 : ℤ) + 10 + 15 ≠ 12)) ∧
    (distribute 1 [2, 2] [2, 2] [true, true] [1, 1] [1, 1] Mode.normal =
        Except.ok [2, 2] ∧ ((2 : ℤ) + 2 ≠ 1)) := by
  refine ⟨⟨?_, by decide⟩, ⟨?_, by decide⟩⟩
  · have hconv : List.replicate ([5, 10, 15] : List ℤ).length true =
        [true, true, true] := rfl
    rw [← hconv,
      distribute_normal_reduce 12 [5, 10, 15] [0, 0, 0] [0, 0, 0] [1, 1, 1]
        (by decide) (by decide) (by decide) (by decide),
      distrib_normal_zero_weights 12 [5, 10, 15] [0, 0, 0] [0, 0, 0] [1, 1, 1]
        (by decide) (by decide) (by decide) (by decide) (by norm_num)]
  · have hconv : List.replicate ([2, 2] : List ℤ).length true =
        [true, true] := rfl
    rw [← hconv,
      distribute_normal_reduce 1 [2, 2] [2, 2] [1, 1] [1, 1]
        (by decide) (by decide) (by decide) (by decide),
      distrib_normal_shrink 1 [2, 2] [2, 2] [1, 1] [1, 1]
        (by decide) (by decide) (by decide) (by decide)
        (by norm_num [List.forall₂_cons]) (by norm_num) (by decide)]
    have hlen5 : (lc_shrink [2, 2] 1 [2, 2] [1, 1]).length =
        ([2, 2] : List ℤ).length := shrinkGo_length 1 [2, 2] [1, 1] _ [2, 2]
    rw [unpack_ones _ _ hlen5]
    obtain ⟨-, hmono, -, hcase⟩ :=
      @lc_shrink_spec [2, 2] [1, 1] 1 [2, 2] (by decide) (by decide) (by norm_num)
        (by norm_num [List.forall₂_cons]) (by decide)
    rcases hcase with hsum | hpin
    · have := forall₂_le_sum hmono
      rw [hsum] at this
      simp at this
    · rw [hpin]

/-- C1 (amended): in MODE_NORMAL with every item advancing, nonnegative
minima below the sizes, strictly positive shrink weights AND growth
weights with nonzero sum (otherwise the sizes are returned unchanged):
when `Σmins ≤ full < Σsizes` the result sums exactly to `full` with
every entry at least its minimum; when `full < Σmins` the result is the
minima themselves (summing to `Σmins`, not `full`). -/
theorem cwidgets_C1 (full : ℤ) (initial mins : List ℤ)
    (weights sweights : List ℚ)
    (h1 : initial.length = mins.length) (h2 : initial.length = weights.length)
    (h3 : initial.length = sweights.length)
    (hm0 : ∀ m ∈ mins, 0 ≤ m) (hmi : List.Forall₂ (· ≤ ·) mins initial)
    (hsw : ∀ s ∈ sweights, 0 < s) (hgw : weights.sum ≠ 0) :
    (mins.sum ≤ full → full < initial.sum →
      ∃ r, distribute full initial mins (List.replicate initial.length true)
          weights sweights Mode.normal = Except.ok r ∧
        r.sum = full ∧ List.Forall₂ (· ≤ ·) mins r) ∧
    (full < mins.sum →
      distribute full initial mins (List.replicate initial.length true)
        weights sweights Mode.normal = Except.ok mins) := by
  have hlenMS : mins.length = sweights.length := by omega
  have hshlen : (lc_shrink initial full mins sweights).length = initial.length :=
    shrinkGo_length full mins sweights _ initial
  have hred : initial ≠ [] → full < initial.sum →
      distribute full initial mins (List.replicate initial.length true)
        weights sweights Mode.normal =
      Except.ok (lc_shrink initial full mins sweights) := by
    intro hne hfullsum
    rw [distribute, if_neg (not_not_intro
      ⟨h1, by rw [List.length_replicate], h2, h3⟩), if_neg (by simp [hne])]
    rw [distrib_normal_shrink full initial mins weights sweights h1 h2 h3
      hm0 hmi hgw (by omega), unpack_ones _ _ hshlen]
  constructor
  · intro hminsum hfullsum
    have hne : initial ≠ [] := by
      intro h
      subst h
      have hm : mins = [] := List.length_eq_zero.mp h1.symm
      subst hm
      simp at hminsum hfullsum
      omega
    obtain ⟨hl, hmono, hge, hcase⟩ :=
      @lc_shrink_spec mins sweights full initial h1 hlenMS hsw hmi (by omega)
    refine ⟨lc_shrink initial full mins sweights, hred hne hfullsum, ?_, hmono⟩
    rcases hcase with hsum | hpin
    · exact hsum
    · rw [hpin] at hge ⊢
      omega
  · intro hfull2
    have hminle : mins.sum ≤ initial.sum := forall₂_le_sum hmi
    by_cases hne : initial = []
    · subst hne
      have hm : mins = [] := List.length_eq_zero.mp h1.symm
      subst hm
      rw [distribute, if_neg (not_not_intro
        ⟨rfl, by rw [List.length_replicate], h2, h3⟩)]
      rfl
    · obtain ⟨hl, hmono, hge, hcase⟩ :=
        @lc_shrink_spec mins sweights full initial h1 hlenMS hsw hmi (by omega)
      rw [hred hne (by omega)]
      rcases hcase with hsum | hpin
      · have hms := forall₂_le_sum hmono
        omega
      · rw [hpin]

/-- C1 witness: six-column scenario `full = 10`, sizes `[6, 6]`, minima
`[2, 2]`, all weights 1, exercising the shrink path
`Σmins = 4 ≤ 10 < 12 = Σsizes`. -/
theorem cwidgets_C1_witness :
    ((([2, 2] : List ℤ).sum ≤ 10 → (10 : ℤ) < ([6, 6] : List ℤ).sum →
      ∃ r, distribute 10 [6, 6] [2, 2]
          (List.replicate ([6, 6] : List ℤ).length true) [1, 1] [1, 1]
          Mode.normal = Except.ok r ∧
        r.sum = 10 ∧ List.Forall₂ (· ≤ ·) [2, 2] r) ∧
    ((10 : ℤ) < ([2, 2] : List ℤ).sum →
      distribute 10 [6, 6] [2, 2] (List.replicate ([6, 6] : List ℤ).length true)
        [1, 1] [1, 1] Mode.normal = Except.ok [2, 2])) :=
  cwidgets_C1 10 [6, 6] [2, 2] [1, 1] [1, 1] (by decide) (by decide) (by decide)
    (by decide) (by norm_num [List.forall₂_cons]) (by norm_num) (by norm_num)

end Cwidgets
